import Mathlib

/-!
# Verification of the Extrudator image-to-solid pipeline

Shallow embedding of the core algorithms of the Extrudator repository
(`src/js/vectorizer.js`, `src/js/extruder.js`, and the older variants under
`src/unnamed/`), together with theorems settling the specification claims.

Modelling conventions:
* JS numbers are modeled as `ℚ` (the pipeline only performs field operations
  and comparisons on them); pixel-grid coordinates in the boundary tracers are
  modeled as `ℤ`.
* JS arrays become `List`s; index loops with cyclic successor/predecessor
  (`(i+1) % len`) become zips with `List.rotate`.
* 2D boolean matrices (binary image, visited flags) become total functions
  from coordinates; out-of-range accesses are guarded in the source before
  every array read, and the embeddings keep exactly those guards.
* JS `throw` / `null` returns become `Except` / `Option` results.
-/

/-- A 2D point in image pixel space, translating the `{x, y}` JS point
objects used throughout `vectorizer.js` and `extruder.js`. -/
structure Pt where
  x : ℚ
  y : ℚ
deriving DecidableEq, Repr

/-- Default point used for out-of-range `List.getD` reads; never reached on
the guarded code paths. -/
def ptO : Pt := ⟨0, 0⟩

/-- One term of the shoelace accumulation loop:
`area += c[i].x * c[j].y; area -= c[j].x * c[i].y`
(`vectorizer.js:452-453`, `extruder.js:124-125`, `extruder.js:262-263`). -/
def cross (p q : Pt) : ℚ := p.x * q.y - q.x * p.y

/-- The list of cyclic consecutive pairs `(c[i], c[(i+1) % n])` for
`i = 0..n-1`, the pairs visited by the `for` loops with
`j = (i + 1) % contour.length`. -/
def cyclicNextPairs (c : List Pt) : List (Pt × Pt) := c.zip (c.rotate 1)

/-- The value of the `area` accumulator after the shoelace loop (the signed
double area), shared verbatim by `Vectorizer.calculateArea`
(`vectorizer.js:448-456`), the extruder's `analyzeContour`
(`extruder.js:119-132`) and `Extruder.calculateContourArea`
(`extruder.js:258-266`). -/
def shoelaceDouble (c : List Pt) : ℚ :=
  ((cyclicNextPairs c).map fun pq => cross pq.1 pq.2).sum

/-- `Vectorizer.calculateArea` (`vectorizer.js:448-456`): signed shoelace
area, `area / 2`. -/
def calculateArea (c : List Pt) : ℚ := shoelaceDouble c / 2

/-- The spec's shoelace formula `Σ(x_i·y_{i+1} − x_{i+1}·y_i)/2` (spec §4.3),
written from the spec's words as an indexed sum with cyclic successor, for
comparison with the source-derived `calculateArea`. -/
def shoelaceSpec (c : List Pt) : ℚ :=
  (∑ i in Finset.range c.length,
    ((c.getD i ptO).x * (c.getD ((i + 1) % c.length) ptO).y -
     (c.getD ((i + 1) % c.length) ptO).x * (c.getD i ptO).y)) / 2

/-- Result record of the extruder's `analyzeContour` closure
(`extruder.js:119-132`): `{ isHole: area < 0, area: Math.abs(area / 2),
points: contour }`. -/
structure AnalyzedContour where
  isHole : Bool
  area : ℚ
  points : List Pt
deriving DecidableEq, Repr

/-- The `analyzeContour` closure inside `Extruder.createModel`
(`extruder.js:119-132`). -/
def analyzeContour (c : List Pt) : AnalyzedContour :=
  { isHole := decide (shoelaceDouble c < 0)
    area := |shoelaceDouble c / 2|
    points := c }

/-- `Extruder.calculateContourArea` (`extruder.js:258-266`): absolute
shoelace area. -/
def calculateContourArea (c : List Pt) : ℚ := |shoelaceDouble c / 2|

/-- The contour record pushed by `Vectorizer.vectorizeImageData`
(`vectorizer.js:360-364`): `{ points, isHole: isWhite, area:
this.calculateArea(points) }` — note `isHole` is the SVG fill-colour flag,
not a sign test on the area. -/
structure ContourEntry where
  points : List Pt
  isHole : Bool
  area : ℚ
deriving DecidableEq, Repr

/-- Construction of a contour entry in the ImageTracer/SVG path of
`Vectorizer.vectorizeImageData` (`vectorizer.js:358-364`). -/
def svgContourEntry (isWhite : Bool) (pts : List Pt) : ContourEntry :=
  { points := pts, isHole := isWhite, area := calculateArea pts }

section ShoelaceLemmas

/-- Fold a list sum into an indexed sum over `Finset.range`. -/
theorem list_sum_eq_range_getD (l : List ℚ) :
    l.sum = ∑ i in Finset.range l.length, l.getD i 0 := by
  induction l with
  | nil => simp
  | cons a t ih =>
      rw [List.sum_cons, ih, List.length_cons, Finset.sum_range_succ']
      simp only [List.getD_cons_succ, List.getD_cons_zero]
      exact add_comm a _

/-- The `i`-th term of the shoelace loop is the cross product of `c[i]` and
`c[(i+1) % n]`. -/
theorem cyclic_cross_getD (c : List Pt) (i : ℕ) (h : i < c.length) :
    ((cyclicNextPairs c).map fun pq => cross pq.1 pq.2).getD i 0 =
      cross (c.getD i ptO) (c.getD ((i + 1) % c.length) ptO) := by
  have hm : i < ((cyclicNextPairs c).map fun pq => cross pq.1 pq.2).length := by
    simpa [cyclicNextPairs] using h
  have hmod : (i + 1) % c.length < c.length := Nat.mod_lt _ (by omega)
  rw [List.getD_eq_getElem _ _ hm, List.getD_eq_getElem _ _ h,
      List.getD_eq_getElem _ _ hmod]
  simp only [cyclicNextPairs, List.getElem_map, List.getElem_zip]
  congr 1
  rw [List.getElem_rotate]

theorem shoelaceDouble_eq_rangeSum (c : List Pt) :
    shoelaceDouble c =
      ∑ i in Finset.range c.length,
        cross (c.getD i ptO) (c.getD ((i + 1) % c.length) ptO) := by
  have hmaplen : ((cyclicNextPairs c).map fun pq => cross pq.1 pq.2).length = c.length := by
    simp [cyclicNextPairs]
  rw [shoelaceDouble, list_sum_eq_range_getD, hmaplen]
  exact Finset.sum_congr rfl fun i hi =>
    cyclic_cross_getD c i (Finset.mem_range.mp hi)

theorem getD_reverse (c : List Pt) (i : ℕ) (h : i < c.length) :
    c.reverse.getD i ptO = c.getD (c.length - 1 - i) ptO := by
  have h1 : i < c.reverse.length := by simpa using h
  have h2 : c.length - 1 - i < c.length := by omega
  rw [List.getD_eq_getElem _ _ h1, List.getD_eq_getElem _ _ h2]
  exact List.getElem_reverse ..

theorem cross_antisymm (p q : Pt) : cross p q = - cross q p := by
  simp only [cross]
  ring

/-- Reversing the point sequence negates the raw shoelace accumulator. -/
theorem shoelaceDouble_reverse (c : List Pt) :
    shoelaceDouble c.reverse = - shoelaceDouble c := by
  rcases Nat.eq_zero_or_pos c.length with h0 | h0
  · have hc : c = [] := List.length_eq_zero.mp h0
    subst hc
    simp [shoelaceDouble, cyclicNextPairs]
  obtain ⟨m, hm⟩ : ∃ m, c.length = m + 1 := ⟨c.length - 1, by omega⟩
  rw [shoelaceDouble_eq_rangeSum, shoelaceDouble_eq_rangeSum]
  simp only [List.length_reverse]
  set n := c.length with hn
  set g : ℕ → ℚ := fun i => cross (c.getD i ptO) (c.getD ((i + 1) % n) ptO)
    with hg
  set gr : ℕ → ℚ :=
    fun i => cross (c.reverse.getD i ptO) (c.reverse.getD ((i + 1) % n) ptO)
    with hgr
  have key1 : ∀ j, j < m → gr (n - 1 - (j + 1)) = - g j := by
    intro j hj
    have hj1 : j + 1 < n := by omega
    have e1 : n - 1 - (j + 1) + 1 < n := by omega
    have e2 : n - 1 - (j + 1) < n := by omega
    rw [hgr]
    simp only
    rw [Nat.mod_eq_of_lt e1, getD_reverse c _ e2, getD_reverse c _ e1]
    have r1 : n - 1 - (n - 1 - (j + 1)) = j + 1 := by omega
    have r2 : n - 1 - (n - 1 - (j + 1) + 1) = j := by omega
    rw [r1, r2, hg]
    simp only
    rw [Nat.mod_eq_of_lt hj1]
    exact (cross_antisymm _ _).symm ▸ cross_antisymm _ _
  have key2 : gr (n - 1 - 0) = - g m := by
    have e2 : n - 1 - 0 < n := by omega
    have e3 : (n - 1 - 0 + 1) % n = 0 := by
      have : n - 1 - 0 + 1 = n := by omega
      rw [this, Nat.mod_self]
    rw [hgr]
    simp only
    rw [e3, getD_reverse c _ e2, getD_reverse c _ h0]
    have r1 : n - 1 - (n - 1 - 0) = 0 := by omega
    have r2 : n - 1 - 0 = m := by omega
    rw [r1, r2, hg]
    simp only
    have e4 : (m + 1) % n = 0 := by
      have hmn : m + 1 = n := by omega
      rw [hmn, Nat.mod_self]
    rw [e4]
    exact cross_antisymm _ _
  calc ∑ i in Finset.range n, gr i
      = ∑ j in Finset.range n, gr (n - 1 - j) :=
        (Finset.sum_range_reflect gr n).symm
    _ = (∑ j in Finset.range m, gr (n - 1 - (j + 1))) + gr (n - 1 - 0) := by
        rw [hm, Finset.sum_range_succ']
    _ = (∑ j in Finset.range m, - g j) + - g m := by
        rw [key2]
        exact congrArg (· + - g m)
          (Finset.sum_congr rfl fun j hj => key1 j (Finset.mem_range.mp hj))
    _ = - ∑ i in Finset.range n, g i := by
        rw [hm, Finset.sum_range_succ, neg_add, ← Finset.sum_neg_distrib]

end ShoelaceLemmas

instance : Inhabited Pt := ⟨ptO⟩

/-- One iteration of the ray-casting loop body shared by
`Vectorizer.isPointInContour` (`vectorizer.js:464-476`) and
`Extruder.isPointInContour` (`extruder.js:274-286`): the `intersect` test
`((yi > p.y) !== (yj > p.y)) && (p.x < (xj - xi) * (p.y - yi) / (yj - yi) + xi)`.
The division is only reached when the first conjunct holds, which forces
`yj ≠ yi`. -/
def rayCrossing (p vi vj : Pt) : Bool :=
  (decide (vi.y > p.y) != decide (vj.y > p.y)) &&
    decide (p.x < (vj.x - vi.x) * (p.y - vi.y) / (vj.y - vi.y) + vi.x)

/-- The pairs `(c[i], c[j])` with `j = (i == 0 ? n-1 : i-1)` visited by the
ray-casting loop `for (let i = 0, j = n - 1; i < n; j = i++)`. -/
def cyclicPrevPairs (c : List Pt) : List (Pt × Pt) :=
  c.zip (c.rotate (c.length - 1))

/-- `isPointInContour` (`vectorizer.js:464-476` = `extruder.js:274-286`):
crossing-number ray casting, toggling `inside` on each crossing edge. -/
def isPointInContour (p : Pt) (c : List Pt) : Bool :=
  (cyclicPrevPairs c).foldl
    (fun ins vij => if rayCrossing p vij.1 vij.2 then !ins else ins) false

/-- A shape assembled by `Extruder.createModel` (`extruder.js:149-152`):
one external contour plus the holes attached to it. -/
structure ShapeWithHoles where
  external : List Pt
  holes : List (List Pt)
deriving DecidableEq, Repr

/-- The inner hole-attachment loop of `Extruder.createModel`
(`extruder.js:155-160`): every hole whose first point lies inside the
external contour is pushed — the loop has no `break` and no marking of
already-attached holes. -/
def attachHoles (ext : List Pt) : List AnalyzedContour → List (List Pt)
  | [] => []
  | h :: hs =>
      if isPointInContour h.points.headI ext then
        h.points :: attachHoles ext hs
      else attachHoles ext hs

/-- The outer shape-assembly loop of `Extruder.createModel`
(`extruder.js:147-163`). -/
def shapesWithHoles (externals holes : List AnalyzedContour) :
    List ShapeWithHoles :=
  externals.map fun ext =>
    { external := ext.points, holes := attachHoles ext.points holes }

/-- Stable insertion used to model `Array.prototype.sort` with comparator
`(a, b) => b.area - a.area` (`extruder.js:138`): descending area. -/
def insertByAreaDesc (a : AnalyzedContour) :
    List AnalyzedContour → List AnalyzedContour
  | [] => [a]
  | b :: l => if b.area ≤ a.area then a :: b :: l else b :: insertByAreaDesc a l

/-- Sort by area descending (`analyzedContours.sort((a, b) => b.area - a.area)`,
`extruder.js:138`), modeled as a stable insertion sort; modern JS sorts are
stable, and every use below has pairwise distinct areas, where all stable
sorts agree. -/
def sortByAreaDesc : List AnalyzedContour → List AnalyzedContour
  | [] => []
  | a :: t => insertByAreaDesc a (sortByAreaDesc t)

/-- The contour-classification part of `Extruder.createModel`
(`extruder.js:119-170`): analyze every contour, sort by area descending,
split externals from holes, attach each hole to every external containing
its first point, and drop shapes whose external area is not above the
`tinyShapeThreshold` of 10 px². -/
def createModelShapes (contours : List (List Pt)) : List ShapeWithHoles :=
  let analyzed := contours.map analyzeContour
  let sorted := sortByAreaDesc analyzed
  let externals := sorted.filter fun c => !c.isHole
  let holes := sorted.filter fun c => c.isHole
  (shapesWithHoles externals holes).filter fun s =>
    decide (10 < calculateContourArea s.external)

/-- The `contourData` argument of `Extruder.createModel`
(result of `Vectorizer.vectorize`). -/
structure ContourData where
  contours : List (List Pt)
  width : ℚ
  height : ℚ

/-- `Extruder.createModel` (`extruder.js:99-251`) result channel: the JS
function returns `null` (with a logged console error) when no contour is
available, builds one mesh per valid shape otherwise, and returns
`this.meshes[0]` or `null`; each built mesh is summarized here by its
`ShapeWithHoles`, and the JS `null` by `Option.none`. -/
def createModel (contourData : Option ContourData) : Option ShapeWithHoles :=
  match contourData with
  | none => none
  | some cd =>
      if cd.contours.length = 0 then none
      else (createModelShapes cd.contours).head?

/-- The parent-candidate test of the hole-association loop in
`Vectorizer.vectorizeImageData` (`vectorizer.js:389-390`):
`!allContours[j].isHole && this.isPointInContour(holeFirstPoint, allContours[j].points)`. -/
def parentCand (p : Pt) (e : ContourEntry) : Bool :=
  !e.isHole && isPointInContour p e.points

/-- The inner `for j` search of `vectorizeImageData` (`vectorizer.js:388-400`)
starting at index `s`: the first entry satisfying `parentCand` wins
(the source loop `break`s on the first match). -/
def firstParentAux (p : Pt) : ℕ → List ContourEntry → Option ℕ
  | _, [] => none
  | s, e :: es => if parentCand p e then some s else firstParentAux p (s + 1) es

/-- Index of the hole's parent: first entry of `entries` (scanned from
index 0) that is not a hole and contains `p` (`vectorizer.js:388-400`). -/
def firstParent (entries : List ContourEntry) (p : Pt) : Option ℕ :=
  firstParentAux p 0 entries

/-- First pass of the `preserveholes` organization in `vectorizeImageData`
(`vectorizer.js:384-410`): non-holes are emitted as-is; a hole whose parent
search fails is emitted reversed when it has more than 3 points and dropped
otherwise; matched holes are only recorded on their parent. -/
def organizePass1 (entries : List ContourEntry) : List (List Pt) :=
  entries.filterMap fun e =>
    if e.isHole then
      match firstParent entries e.points.headI with
      | some _ => none
      | none => if 3 < e.points.length then some e.points.reverse else none
    else some e.points

/-- The holes recorded on the entry at index `j` during the first pass, in
scan order (`allContours[j].holes`, `vectorizer.js:391-396`). -/
def holesOf (entries : List ContourEntry) (j : ℕ) : List (List Pt) :=
  ((entries.filter fun e =>
      e.isHole && (firstParent entries e.points.headI == some j)).map
    fun e => e.points)

/-- Second pass of `vectorizeImageData` (`vectorizer.js:412-421`): for each
non-hole entry, append its recorded holes, each reversed. -/
def organizePass2 (entries : List ContourEntry) : List (List Pt) :=
  ((List.range entries.length).filterMap fun j =>
      match entries.get? j with
      | some e => if e.isHole then none else some ((holesOf entries j).map List.reverse)
      | none => none).flatten

/-- The full `preserveholes` contour organization of `vectorizeImageData`
(`vectorizer.js:380-425`). -/
def organizeContoursIT (entries : List ContourEntry) : List (List Pt) :=
  organizePass1 entries ++ organizePass2 entries

section HoleAssociationLemmas

theorem attachHoles_eq_filter (ext : List Pt) (hs : List AnalyzedContour) :
    attachHoles ext hs =
      (hs.filter fun h => isPointInContour h.points.headI ext).map
        fun h => h.points := by
  induction hs with
  | nil => rfl
  | cons h t ih =>
      cases hc : isPointInContour h.points.headI ext with
      | true => simp [attachHoles, hc, ih, List.filter_cons]
      | false => simp [attachHoles, hc, ih, List.filter_cons]

theorem shapesWithHoles_externals (exts hs : List AnalyzedContour) :
    (shapesWithHoles exts hs).map ShapeWithHoles.external =
      exts.map AnalyzedContour.points := by
  simp [shapesWithHoles]

theorem firstParentAux_spec (p : Pt) :
    ∀ (es : List ContourEntry) (s m : ℕ),
      firstParentAux p s es = some m ↔
        ∃ j, m = s + j ∧
          (∃ e, es.get? j = some e ∧ parentCand p e = true) ∧
          (∀ k, k < j → ∀ ek, es.get? k = some ek → parentCand p ek = false) := by
  intro es
  induction es with
  | nil =>
      intro s m
      simp [firstParentAux]
  | cons e t ih =>
      intro s m
      cases hc : parentCand p e with
      | true =>
          simp only [firstParentAux, hc, if_true]
          constructor
          · intro h
            injection h with h
            subst h
            exact ⟨0, by omega, ⟨e, rfl, hc⟩, fun k hk => by omega⟩
          · rintro ⟨j, hm, ⟨e', hj, hcand⟩, hmin⟩
            cases j with
            | zero => subst hm; rfl
            | succ j' =>
                have h0 := hmin 0 (by omega) e rfl
                rw [hc] at h0
                cases h0
      | false =>
          simp only [firstParentAux, hc, Bool.false_eq_true, if_false]
          rw [ih (s + 1) m]
          constructor
          · rintro ⟨j, hm, ⟨e', hj, hcand⟩, hmin⟩
            refine ⟨j + 1, by omega, ⟨e', by simpa using hj, hcand⟩, ?_⟩
            intro k hk ek hget
            cases k with
            | zero =>
                simp only [List.get?_cons_zero, Option.some.injEq] at hget
                subst hget
                exact hc
            | succ k' =>
                exact hmin k' (by omega) ek (by simpa using hget)
          · rintro ⟨j, hm, ⟨e', hj, hcand⟩, hmin⟩
            cases j with
            | zero =>
                simp only [List.get?_cons_zero, Option.some.injEq] at hj
                subst hj
                rw [hc] at hcand
                cases hcand
            | succ j' =>
                refine ⟨j', by omega, ⟨e', by simpa using hj, hcand⟩, ?_⟩
                intro k hk ek hget
                exact hmin (k + 1) (by omega) ek (by simpa using hget)

theorem firstParent_spec (entries : List ContourEntry) (p : Pt) (j : ℕ) :
    firstParent entries p = some j ↔
      (∃ e, entries.get? j = some e ∧ parentCand p e = true) ∧
      (∀ k, k < j → ∀ ek, entries.get? k = some ek → parentCand p ek = false) := by
  rw [firstParent, firstParentAux_spec]
  constructor
  · rintro ⟨j', hm, hex, hmin⟩
    have : j' = j := by omega
    subst this
    exact ⟨hex, hmin⟩
  · rintro ⟨hex, hmin⟩
    exact ⟨j, by omega, hex, hmin⟩

theorem unmatched_hole_retained (entries : List ContourEntry)
    (e : ContourEntry) (he : e ∈ entries) (hh : e.isHole = true)
    (hp : firstParent entries e.points.headI = none)
    (hl : 3 < e.points.length) :
    e.points.reverse ∈ organizeContoursIT entries := by
  apply List.mem_append_left
  apply List.mem_filterMap.mpr
  exact ⟨e, he, by simp [hh, hp, hl]⟩

theorem matched_hole_attached (entries : List ContourEntry)
    (e : ContourEntry) (j : ℕ) (he : e ∈ entries) (hh : e.isHole = true)
    (hp : firstParent entries e.points.headI = some j) :
    e.points.reverse ∈ organizeContoursIT entries := by
  apply List.mem_append_right
  obtain ⟨⟨par, hget, hcand⟩, -⟩ := (firstParent_spec entries _ j).mp hp
  have hjlt : j < entries.length := List.get?_eq_some.mp hget |>.1
  have hpar : par.isHole = false := by
    have := (Bool.and_eq_true _ _).mp hcand |>.1
    simpa using this
  apply List.mem_flatten.mpr
  refine ⟨(holesOf entries j).map List.reverse, ?_, ?_⟩
  · apply List.mem_filterMap.mpr
    refine ⟨j, List.mem_range.mpr hjlt, ?_⟩
    rw [hget]
    simp [hpar]
  · apply List.mem_map.mpr
    refine ⟨e.points, ?_, rfl⟩
    apply List.mem_map.mpr
    refine ⟨e, ?_, rfl⟩
    apply List.mem_filter.mpr
    refine ⟨he, ?_⟩
    simp [hh, hp]

end HoleAssociationLemmas

/-- C3 (amended): parent association as the code implements it. In the
SVG-tracer organizer the first outer entry (in scan order, i.e. descending
area after the sort at `vectorizer.js:371`) containing the hole's first
point becomes the parent, and a hole with no containing outer is retained
reversed only when it has more than 3 points; in the extruder's assembly a
hole is attached to every containing outer (not only the first), and
unmatched holes never appear in the output shapes. -/
theorem hole_association_behaviour :
    (∀ ext hs, attachHoles ext hs =
        (hs.filter fun h => isPointInContour h.points.headI ext).map
          fun h => h.points) ∧
    (∀ exts hs, (shapesWithHoles exts hs).map ShapeWithHoles.external =
        exts.map AnalyzedContour.points) ∧
    (∀ entries p j, firstParent entries p = some j ↔
        (∃ e, entries.get? j = some e ∧ parentCand p e = true) ∧
        (∀ k, k < j → ∀ ek, entries.get? k = some ek →
          parentCand p ek = false)) ∧
    (∀ entries e, e ∈ entries → e.isHole = true →
        firstParent entries e.points.headI = none → 3 < e.points.length →
        e.points.reverse ∈ organizeContoursIT entries) ∧
    (∀ entries e j, e ∈ entries → e.isHole = true →
        firstParent entries e.points.headI = some j →
        e.points.reverse ∈ organizeContoursIT entries) :=
  ⟨attachHoles_eq_filter, shapesWithHoles_externals, firstParent_spec,
    unmatched_hole_retained, matched_hole_attached⟩

/-- C3 (witness): the amended association theorem applied at concrete
inputs: an orphan 4-point hole is retained reversed, and a hole contained
in an outer square is attached to it. -/
theorem hole_association_behaviour_witness :
    ([⟨5, 5⟩, ⟨5, 10⟩, ⟨10, 10⟩, ⟨10, 5⟩] : List Pt).reverse ∈
      organizeContoursIT
        [svgContourEntry true [⟨5, 5⟩, ⟨5, 10⟩, ⟨10, 10⟩, ⟨10, 5⟩]] ∧
    ([⟨5, 5⟩, ⟨5, 10⟩, ⟨10, 10⟩, ⟨10, 5⟩] : List Pt).reverse ∈
      organizeContoursIT
        [svgContourEntry false [⟨0, 0⟩, ⟨20, 0⟩, ⟨20, 20⟩, ⟨0, 20⟩],
         svgContourEntry true [⟨5, 5⟩, ⟨5, 10⟩, ⟨10, 10⟩, ⟨10, 5⟩]] := by
  constructor
  · exact hole_association_behaviour.2.2.2.1 _
      (svgContourEntry true [⟨5, 5⟩, ⟨5, 10⟩, ⟨10, 10⟩, ⟨10, 5⟩])
      (by simp) rfl (by norm_num [firstParent, firstParentAux, parentCand,
        svgContourEntry]) (by norm_num [svgContourEntry])
  · exact hole_association_behaviour.2.2.2.2 _
      (svgContourEntry true [⟨5, 5⟩, ⟨5, 10⟩, ⟨10, 10⟩, ⟨10, 5⟩]) 0
      (by simp) rfl
      (by norm_num [firstParent, firstParentAux, parentCand, svgContourEntry,
        isPointInContour, cyclicPrevPairs, List.rotate, rayCrossing])

/-- C3 (counterexample): on three concrete contours — outer square `E1`,
nested outer square `E2` inside it, and hole `H1` inside both — the
extruder's `createModel` attaches `H1` to BOTH externals, so the first
containing outer is not the hole's unique parent; and no unmatched-hole
shape is ever emitted by this path. -/
theorem extruder_hole_double_attachment :
    createModelShapes
        [[⟨0, 0⟩, ⟨20, 0⟩, ⟨20, 20⟩, ⟨0, 20⟩],
         [⟨2, 2⟩, ⟨16, 2⟩, ⟨16, 16⟩, ⟨2, 16⟩],
         [⟨5, 5⟩, ⟨5, 10⟩, ⟨10, 10⟩, ⟨10, 5⟩]] =
      [⟨[⟨0, 0⟩, ⟨20, 0⟩, ⟨20, 20⟩, ⟨0, 20⟩],
        [[⟨5, 5⟩, ⟨5, 10⟩, ⟨10, 10⟩, ⟨10, 5⟩]]⟩,
       ⟨[⟨2, 2⟩, ⟨16, 2⟩, ⟨16, 16⟩, ⟨2, 16⟩],
        [[⟨5, 5⟩, ⟨5, 10⟩, ⟨10, 10⟩, ⟨10, 5⟩]]⟩] := by
  norm_num [createModelShapes, analyzeContour, shoelaceDouble,
    cyclicNextPairs, cross, List.rotate, sortByAreaDesc, insertByAreaDesc,
    shapesWithHoles, attachHoles, isPointInContour, cyclicPrevPairs,
    rayCrossing, calculateContourArea]

/-- C7 (amended): `Extruder.createModel` signals an empty shape list — and
any input whose shapes are all filtered away — by returning `null`
(`Option.none` here) after logging a console error; the failure is
distinguishable from any mesh, but it is a bare null, not a typed
`EmptyVectorData` error, and no empty mesh object is ever returned. -/
theorem createModel_null_signalling :
    (∀ W H, createModel (some ⟨[], W, H⟩) = none) ∧
    (∀ cd, createModel (some cd) = (createModelShapes cd.contours).head?) ∧
    createModel none = none := by
  refine ⟨fun W H => rfl, fun cd => ?_, rfl⟩
  by_cases h : cd.contours.length = 0
  · have hnil : cd.contours = [] := List.length_eq_zero.mp h
    simp [createModel, h, hnil, createModelShapes, sortByAreaDesc,
      shapesWithHoles]
  · simp [createModel, h]

/-- C7 (counterexample): invoked on an empty shape list, `createModel`
returns the bare `null` (`none`) — there is no typed `EmptyVectorData`
error value anywhere in the result. -/
theorem createModel_empty_returns_none :
    createModel (some ⟨[], 100, 100⟩) = none := rfl

/-- `Vectorizer.isFrameContour` (`vectorizer.js:157-185`): a contour with at
least 4 points is flagged as a scan-frame artifact when its axis-aligned
bounding box covers strictly more than 90 % of the image and all four bbox
edges are strictly within 5 pixels of the image border. The source folds
`Math.min`/`Math.max` over the points starting from `±Infinity`; for the
nonempty lists reaching this code that is the list minimum/maximum, modeled
with `List.min?`/`List.max?` (the `getD 0` default is unreachable since the
list has ≥ 4 points). -/
def isFrameContour (W H : ℚ) (c : List Pt) : Bool :=
  if c.length < 4 then false
  else
    let minX := ((c.map Pt.x).min?).getD 0
    let minY := ((c.map Pt.y).min?).getD 0
    let maxX := ((c.map Pt.x).max?).getD 0
    let maxY := ((c.map Pt.y).max?).getD 0
    let contourArea := (maxX - minX) * (maxY - minY)
    let imageArea := W * H
    decide (contourArea / imageArea > 9 / 10) &&
      (decide (minX < 5) && decide (minY < 5) &&
       decide (maxX > W - 5) && decide (maxY > H - 5))

section FrameRejection

theorem rat_min?_spec (l : List ℚ) (a : ℚ) :
    l.min? = some a ↔ a ∈ l ∧ ∀ b ∈ l, a ≤ b := by
  haveI : Std.Antisymm ((· : ℚ) ≤ ·) := ⟨fun h1 h2 => le_antisymm h1 h2⟩
  exact List.min?_eq_some_iff (fun _ => le_refl _) (fun a b => min_choice a b)
    (fun _ _ _ => le_min_iff)

theorem rat_max?_spec (l : List ℚ) (a : ℚ) :
    l.max? = some a ↔ a ∈ l ∧ ∀ b ∈ l, b ≤ a := by
  haveI : Std.Antisymm ((· : ℚ) ≤ ·) := ⟨fun h1 h2 => le_antisymm h1 h2⟩
  exact List.max?_eq_some_iff (fun _ => le_refl _) (fun a b => max_choice a b)
    (fun _ _ _ => max_le_iff)

theorem isFrameContour_true_iff (W H : ℚ) (c : List Pt) :
    isFrameContour W H c = true ↔
      4 ≤ c.length ∧
      ∃ mx my Mx My,
        (∀ p ∈ c, mx ≤ p.x ∧ p.x ≤ Mx ∧ my ≤ p.y ∧ p.y ≤ My) ∧
        (∃ p ∈ c, p.x = mx) ∧ (∃ p ∈ c, p.x = Mx) ∧
        (∃ p ∈ c, p.y = my) ∧ (∃ p ∈ c, p.y = My) ∧
        (Mx - mx) * (My - my) / (W * H) > 9 / 10 ∧
        mx < 5 ∧ my < 5 ∧ Mx > W - 5 ∧ My > H - 5 := by
  by_cases hlen : c.length < 4
  · rw [isFrameContour, if_pos hlen]
    simp only [Bool.false_eq_true, false_iff, not_and]
    intro h4
    omega
  · rw [isFrameContour, if_neg hlen]
    have hne : c ≠ [] := by
      intro h
      subst h
      simp at hlen
    have hxne : c.map Pt.x ≠ [] := by simpa using hne
    have hyne : c.map Pt.y ≠ [] := by simpa using hne
    obtain ⟨mx0, hmx⟩ : ∃ a, (c.map Pt.x).min? = some a := by
      cases h : (c.map Pt.x).min? with
      | some a => exact ⟨a, rfl⟩
      | none => exact absurd (List.min?_eq_none_iff.mp h) hxne
    obtain ⟨Mx0, hMx⟩ : ∃ a, (c.map Pt.x).max? = some a := by
      cases h : (c.map Pt.x).max? with
      | some a => exact ⟨a, rfl⟩
      | none => exact absurd (List.max?_eq_none_iff.mp h) hxne
    obtain ⟨my0, hmy⟩ : ∃ a, (c.map Pt.y).min? = some a := by
      cases h : (c.map Pt.y).min? with
      | some a => exact ⟨a, rfl⟩
      | none => exact absurd (List.min?_eq_none_iff.mp h) hyne
    obtain ⟨My0, hMy⟩ : ∃ a, (c.map Pt.y).max? = some a := by
      cases h : (c.map Pt.y).max? with
      | some a => exact ⟨a, rfl⟩
      | none => exact absurd (List.max?_eq_none_iff.mp h) hyne
    obtain ⟨hmxm, hmxb⟩ := (rat_min?_spec _ _).mp hmx
    obtain ⟨hMxm, hMxb⟩ := (rat_max?_spec _ _).mp hMx
    obtain ⟨hmym, hmyb⟩ := (rat_min?_spec _ _).mp hmy
    obtain ⟨hMym, hMyb⟩ := (rat_max?_spec _ _).mp hMy
    simp only [hmx, hmy, hMx, hMy, Option.getD_some, Bool.and_eq_true,
      decide_eq_true_eq]
    constructor
    · rintro ⟨hratio, ⟨⟨hminx, hminy⟩, hmaxx⟩, hmaxy⟩
      refine ⟨by omega, mx0, my0, Mx0, My0, ?_, ?_, ?_, ?_, ?_,
        hratio, hminx, hminy, hmaxx, hmaxy⟩
      · intro p hp
        exact ⟨hmxb _ (List.mem_map_of_mem _ hp),
          hMxb _ (List.mem_map_of_mem _ hp),
          hmyb _ (List.mem_map_of_mem _ hp),
          hMyb _ (List.mem_map_of_mem _ hp)⟩
      · obtain ⟨p, hp, hpe⟩ := List.mem_map.mp hmxm
        exact ⟨p, hp, hpe⟩
      · obtain ⟨p, hp, hpe⟩ := List.mem_map.mp hMxm
        exact ⟨p, hp, hpe⟩
      · obtain ⟨p, hp, hpe⟩ := List.mem_map.mp hmym
        exact ⟨p, hp, hpe⟩
      · obtain ⟨p, hp, hpe⟩ := List.mem_map.mp hMym
        exact ⟨p, hp, hpe⟩
    · rintro ⟨-, mx, my, Mx, My, hbound, ⟨p1, hp1, he1⟩, ⟨p2, hp2, he2⟩,
        ⟨p3, hp3, he3⟩, ⟨p4, hp4, he4⟩, hratio, h1, h2, h3, h4⟩
      obtain ⟨q1, hq1, hqe1⟩ := List.mem_map.mp hmxm
      obtain ⟨q2, hq2, hqe2⟩ := List.mem_map.mp hMxm
      obtain ⟨q3, hq3, hqe3⟩ := List.mem_map.mp hmym
      obtain ⟨q4, hq4, hqe4⟩ := List.mem_map.mp hMym
      have e1 : mx0 = mx := le_antisymm
        (he1 ▸ hmxb _ (List.mem_map_of_mem _ hp1))
        (hqe1 ▸ (hbound q1 hq1).1)
      have e2 : Mx0 = Mx := le_antisymm
        (hqe2 ▸ (hbound q2 hq2).2.1)
        (he2 ▸ hMxb _ (List.mem_map_of_mem _ hp2))
      have e3 : my0 = my := le_antisymm
        (he3 ▸ hmyb _ (List.mem_map_of_mem _ hp3))
        (hqe3 ▸ (hbound q3 hq3).2.2.1)
      have e4 : My0 = My := le_antisymm
        (hqe4 ▸ (hbound q4 hq4).2.2.2)
        (he4 ▸ hMyb _ (List.mem_map_of_mem _ hp4))
      rw [e1, e2, e3, e4]
      exact ⟨hratio, ⟨⟨h1, h2⟩, h3⟩, h4⟩

theorem isFrameContour_full_extent (W H : ℚ) (c : List Pt)
    (hlen : 4 ≤ c.length)
    (hbound : ∀ p ∈ c, 0 ≤ p.x ∧ p.x ≤ W ∧ 0 ≤ p.y ∧ p.y ≤ H)
    (hx0 : ∃ p ∈ c, p.x = 0) (hxW : ∃ p ∈ c, p.x = W)
    (hy0 : ∃ p ∈ c, p.y = 0) (hyH : ∃ p ∈ c, p.y = H)
    (hW : 0 < W) (hH : 0 < H) :
    isFrameContour W H c = true := by
  rw [isFrameContour_true_iff]
  refine ⟨hlen, 0, 0, W, H, hbound, hx0, hxW, hy0, hyH, ?_, by norm_num,
    by norm_num, by linarith, by linarith⟩
  have hWH : W * H ≠ 0 := by positivity
  rw [sub_zero, sub_zero, div_self hWH]
  norm_num

theorem isFrameContour_short (W H : ℚ) (c : List Pt) (h : c.length < 4) :
    isFrameContour W H c = false := by
  rw [isFrameContour, if_pos h]

end FrameRejection

/-- C4 (amended): frame rejection as the code implements it: a polygon is
flagged as a scan-frame artifact iff it has at least 4 points, its bounding
box covers strictly more than 90 % of the image area, and all four bbox
edges are strictly within 5 pixels of the border; consequently a ≥ 4-point
polygon whose bbox spans the full image extent is always rejected, but a
3-point polygon is never rejected — even one spanning the full image. -/
theorem frame_rejection_characterization :
    (∀ W H c, isFrameContour W H c = true ↔
      4 ≤ c.length ∧
      ∃ mx my Mx My,
        (∀ p ∈ c, mx ≤ p.x ∧ p.x ≤ Mx ∧ my ≤ p.y ∧ p.y ≤ My) ∧
        (∃ p ∈ c, p.x = mx) ∧ (∃ p ∈ c, p.x = Mx) ∧
        (∃ p ∈ c, p.y = my) ∧ (∃ p ∈ c, p.y = My) ∧
        (Mx - mx) * (My - my) / (W * H) > 9 / 10 ∧
        mx < 5 ∧ my < 5 ∧ Mx > W - 5 ∧ My > H - 5) ∧
    (∀ W H c, 4 ≤ c.length →
      (∀ p ∈ c, 0 ≤ p.x ∧ p.x ≤ W ∧ 0 ≤ p.y ∧ p.y ≤ H) →
      (∃ p ∈ c, p.x = 0) → (∃ p ∈ c, p.x = W) →
      (∃ p ∈ c, p.y = 0) → (∃ p ∈ c, p.y = H) →
      0 < W → 0 < H → isFrameContour W H c = true) ∧
    (∀ W H c, c.length < 4 → isFrameContour W H c = false) :=
  ⟨isFrameContour_true_iff, isFrameContour_full_extent, isFrameContour_short⟩

/-- C4 (witness): the amended characterization applied at concrete inputs:
the full-extent 4-point square is rejected, the full-extent 3-point
triangle is not. -/
theorem frame_rejection_characterization_witness :
    isFrameContour 100 100 [⟨0, 0⟩, ⟨100, 0⟩, ⟨100, 100⟩, ⟨0, 100⟩] = true ∧
    isFrameContour 100 100 [⟨0, 0⟩, ⟨100, 0⟩, ⟨100, 100⟩] = false := by
  constructor
  · refine frame_rejection_characterization.2.1 100 100 _ (by norm_num)
      ?_ ?_ ?_ ?_ ?_ (by norm_num) (by norm_num)
    · intro p hp
      simp only [List.mem_cons, List.not_mem_nil, or_false] at hp
      rcases hp with rfl | rfl | rfl | rfl <;> norm_num
    · exact ⟨⟨0, 0⟩, by norm_num, rfl⟩
    · exact ⟨⟨100, 0⟩, by norm_num, rfl⟩
    · exact ⟨⟨100, 0⟩, by norm_num, rfl⟩
    · exact ⟨⟨100, 100⟩, by norm_num, rfl⟩
  · exact frame_rejection_characterization.2.2 100 100 _ (by norm_num)

/-- C4 (counterexample): the 3-point polygon `(0,0), (100,0), (100,100)` in
a 100×100 image has the full image extent as its bounding box — it covers
100 % ≥ 90 % of the image with all bbox edges exactly on the border — yet
`isFrameContour` does not reject it (the < 4 points early exit), so under
the claimed iff it would have to be discarded, and under the claimed
"never appears" guarantee it could not survive, both contradicted here. -/
theorem frame_rejection_triangle_escape :
    isFrameContour 100 100 [⟨0, 0⟩, ⟨100, 0⟩, ⟨100, 100⟩] = false ∧
    (([⟨0, 0⟩, ⟨100, 0⟩, ⟨100, 100⟩] : List Pt).map Pt.x).min?.getD 0 = 0 ∧
    (([⟨0, 0⟩, ⟨100, 0⟩, ⟨100, 100⟩] : List Pt).map Pt.x).max?.getD 0 = 100 ∧
    (([⟨0, 0⟩, ⟨100, 0⟩, ⟨100, 100⟩] : List Pt).map Pt.y).min?.getD 0 = 0 ∧
    (([⟨0, 0⟩, ⟨100, 0⟩, ⟨100, 100⟩] : List Pt).map Pt.y).max?.getD 0 = 100 := by
  refine ⟨rfl, ?_, ?_, ?_, ?_⟩ <;>
    norm_num [List.min?, List.max?, min_def, max_def]

/-- One DXF LINE record as written by `Extruder.createDXF`
(`extruder.js:417-425`): group codes 10/20/30 hold the start point and
11/21/31 the end point; the layer code 8 is the constant 0 and is omitted
here. -/
structure DXFLine where
  x1 : ℚ
  y1 : ℚ
  z1 : ℚ
  x2 : ℚ
  y2 : ℚ
  z2 : ℚ
deriving DecidableEq, Repr

/-- The LINE record for one segment (`extruder.js:410-425`): Y flipped via
`y = imageHeight - point.y`, both Z group codes written as `0`. -/
def dxfSegment (imageHeight : ℚ) (s e : Pt) : DXFLine :=
  ⟨s.x, imageHeight - s.y, 0, e.x, imageHeight - e.y, 0⟩

/-- Per-contour loop of `Extruder.createDXF` (`extruder.js:405-427`):
contours with fewer than 2 points are skipped, otherwise one LINE record per
`i in 0..length-2` pairing `contour[i]` with `contour[i+1]`. -/
def dxfContourLines (imageHeight : ℚ) (c : List Pt) : List DXFLine :=
  if c.length < 2 then []
  else (List.range (c.length - 1)).map fun i =>
    dxfSegment imageHeight (c.getD i ptO) (c.getD (i + 1) ptO)

/-- `Extruder.createDXF` (`extruder.js:400-433`) record stream: all contours
flattened in order (outer contours and holes alike, holes not marked); the
textual output wraps exactly these records in the fixed
`SECTION`/`ENTITIES`/`ENDSEC`/`EOF` frame. -/
def createDXFLines (contours : List (List Pt)) (imageHeight : ℚ) :
    List DXFLine :=
  (contours.map fun c => dxfContourLines imageHeight c).flatten

section DXFLemmas

theorem dxfContourLines_eq_zip (H : ℚ) (c : List Pt) :
    dxfContourLines H c =
      (c.zip c.tail).map fun se => dxfSegment H se.1 se.2 := by
  match c with
  | [] => rfl
  | [a] => rfl
  | a :: b :: t =>
      have hA : (a :: b :: t).length = t.length + 2 := by simp
      rw [dxfContourLines, if_neg (by omega)]
      apply List.ext_getElem
      · simp
      · intro i h1 h2
        have hi : i < (a :: b :: t).length - 1 := by simpa using h1
        have hiz : i < (a :: b :: t).length := by omega
        have hi1 : i + 1 < (a :: b :: t).length := by omega
        simp only [List.getElem_map, List.getElem_range, List.getElem_zip]
        congr 1
        · rw [List.getD_eq_getElem _ _ hiz]
        · rw [List.getD_eq_getElem _ _ hi1]
          exact List.getElem_cons_succ ..

theorem createDXFLines_length (contours : List (List Pt)) (H : ℚ) :
    (createDXFLines contours H).length =
      (contours.map fun c => if 2 ≤ c.length then c.length - 1 else 0).sum := by
  rw [createDXFLines, List.length_flatten, List.map_map]
  congr 1
  apply List.map_congr_left
  intro c _
  simp only [Function.comp_apply]
  by_cases h : c.length < 2
  · rw [dxfContourLines, if_pos h, if_neg (by omega)]
    rfl
  · rw [dxfContourLines, if_neg h, if_pos (by omega)]
    simp

theorem createDXFLines_z_zero (contours : List (List Pt)) (H : ℚ) :
    (createDXFLines contours H).all
      (fun r => r.z1 == 0 && r.z2 == 0) = true := by
  apply List.all_eq_true.mpr
  intro r hr
  obtain ⟨l, hl, hrl⟩ := List.mem_flatten.mp hr
  obtain ⟨c, -, rfl⟩ := List.mem_map.mp hl
  rw [dxfContourLines_eq_zip] at hrl
  obtain ⟨se, -, rfl⟩ := List.mem_map.mp hrl
  simp [dxfSegment]

end DXFLemmas

/-- C6: the vector line serializer emits exactly one LINE record per
consecutive point pair within each polygon (holes not specially marked),
skips polygons with fewer than 2 points, writes both Z group codes as 0,
flips Y as `y' = H − y`; and the 4-point square `[(0,0),(10,0),(10,10),
(0,10)]` with `H = 10` yields exactly 3 LINE records whose first start
point maps to Y value 10. -/
theorem dxf_line_serialization :
    (∀ H c, dxfContourLines H c =
        (c.zip c.tail).map fun se => dxfSegment H se.1 se.2) ∧
    (∀ H s e, dxfSegment H s e = ⟨s.x, H - s.y, 0, e.x, H - e.y, 0⟩) ∧
    (∀ contours H, (createDXFLines contours H).all
        (fun r => r.z1 == 0 && r.z2 == 0) = true) ∧
    (∀ contours H, (createDXFLines contours H).length =
        (contours.map fun c => if 2 ≤ c.length then c.length - 1 else 0).sum) ∧
    (createDXFLines [[⟨0, 0⟩, ⟨10, 0⟩, ⟨10, 10⟩, ⟨0, 10⟩]] 10).length = 3 ∧
    (createDXFLines [[⟨0, 0⟩, ⟨10, 0⟩, ⟨10, 10⟩, ⟨0, 10⟩]] 10).head?.map
      DXFLine.y1 = some 10 := by
  refine ⟨dxfContourLines_eq_zip, fun H s e => rfl, createDXFLines_z_zero,
    createDXFLines_length, ?_, ?_⟩ <;>
    norm_num [createDXFLines, dxfContourLines, dxfSegment, List.range_succ]

/-- One RGBA pixel of the `ImageData` buffer (the stride-4 layout of
`this.imageData.data`, `vectorizer.js:85-96`). -/
structure RGBA where
  r : ℚ
  g : ℚ
  b : ℚ
  a : ℚ
deriving DecidableEq, Repr

/-- Per-pixel binarization of `Vectorizer.applyThreshold`
(`vectorizer.js:87-96`): `gray = 0.299*r + 0.587*g + 0.114*b`, value `0`
(ink) when `gray < threshold` else `255`, alpha forced to 255. -/
def thresholdPixel (T : ℚ) (p : RGBA) : RGBA :=
  let gray := 0.299 * p.r + 0.587 * p.g + 0.114 * p.b
  let value : ℚ := if gray < T then 0 else 255
  ⟨value, value, value, 255⟩

/-- The error thrown by `Vectorizer.applyThreshold` when no image is loaded
(`"Aucune image chargée"`, `vectorizer.js:79-81`) — the spec's
`NoImageLoaded`. -/
inductive VectorizerError where
  | noImageLoaded
deriving DecidableEq, Repr

/-- `Vectorizer.applyThreshold` (`vectorizer.js:76-100`): throws
`NoImageLoaded` when invoked before an image buffer exists, otherwise maps
every pixel of the buffer through the threshold. -/
def applyThreshold (imageData : Option (List RGBA)) (T : ℚ) :
    Except VectorizerError (List RGBA) :=
  match imageData with
  | none => .error .noImageLoaded
  | some data => .ok (data.map (thresholdPixel T))

/-- C8: binarization classifies a pixel as ink (value 0) exactly when
`0.299R + 0.587G + 0.114B < T`, as background (255) otherwise, and fails
with `NoImageLoaded` when invoked before any image buffer exists. -/
theorem threshold_binarization (T : ℚ) (img : List RGBA) (p : RGBA) :
    applyThreshold none T = .error .noImageLoaded ∧
    applyThreshold (some img) T = .ok (img.map (thresholdPixel T)) ∧
    ((thresholdPixel T p).r = 0 ↔
      0.299 * p.r + 0.587 * p.g + 0.114 * p.b < T) ∧
    ((thresholdPixel T p).r = 255 ↔
      ¬ (0.299 * p.r + 0.587 * p.g + 0.114 * p.b < T)) := by
  refine ⟨rfl, rfl, ?_, ?_⟩ <;>
    · rw [thresholdPixel]
      by_cases h : 0.299 * p.r + 0.587 * p.g + 0.114 * p.b < T <;>
        simp [h]

/-- A 4-byte cell as written by `DataView.setFloat32(offset, v, true)`
(`extruder.js:524-533`): the `DataView` contract writes exactly 4 bytes in
little-endian order; the embedding keeps the 4 encoded bytes abstract (the
IEEE-754 float32 rounding of the JS number is not modeled — no claim
depends on the numeric value of these bytes). -/
structure F32 where
  b0 : ℕ
  b1 : ℕ
  b2 : ℕ
  b3 : ℕ
deriving DecidableEq, Repr

/-- The 4 bytes of one float32 cell in write order. -/
def F32.bytes (v : F32) : List ℕ := [v.b0, v.b1, v.b2, v.b3]

/-- Three float32 cells written as x, y, z (`extruder.js:524-526` and
`531-533`). -/
structure Vec3F32 where
  x : F32
  y : F32
  z : F32
deriving DecidableEq, Repr

/-- The 12 bytes of a vector in write order. -/
def Vec3F32.bytes (v : Vec3F32) : List ℕ := v.x.bytes ++ v.y.bytes ++ v.z.bytes

/-- One triangle of the STL exporter's intermediate list (normal and three
vertices, `extruder.js:520-534`). -/
structure TriF32 where
  normal : Vec3F32
  v0 : Vec3F32
  v1 : Vec3F32
  v2 : Vec3F32
deriving DecidableEq, Repr

/-- Little-endian bytes of `DataView.setUint16(offset, n, true)`. -/
def u16le (n : ℕ) : List ℕ := [n % 256, n / 256 % 256]

/-- Little-endian bytes of `DataView.setUint32(offset, n, true)` (the JS
`ToUint32` conversion reduces the count modulo `2^32`). -/
def u32le (n : ℕ) : List ℕ :=
  [n % 256, n / 256 % 256, n / 65536 % 256, n / 16777216 % 256]

/-- The 50 bytes of one triangle record (`extruder.js:520-537`): 12 normal
bytes, 36 vertex bytes, then the unused uint16 attribute written as 0. -/
def triBytes (t : TriF32) : List ℕ :=
  t.normal.bytes ++ t.v0.bytes ++ t.v1.bytes ++ t.v2.bytes ++ u16le 0

/-- `DataView.setUint8`: point update of the byte store. -/
def setByte (v : ℕ → ℕ) (i b : ℕ) : ℕ → ℕ := fun j => if j = i then b else v j

/-- Sequential byte writes starting at `off` (each `setFloat32`/`setUint16`
call of the source advances `offset` past the bytes it wrote). -/
def writeBytes (v : ℕ → ℕ) : ℕ → List ℕ → ℕ → ℕ
  | _, [], j => v j
  | off, b :: bs, j => writeBytes (setByte v off b) (off + 1) bs j

/-- The `triangles.forEach` write loop (`extruder.js:519-538`): each record
starts 50 bytes after the previous one. -/
def writeTris (v : ℕ → ℕ) : ℕ → List TriF32 → ℕ → ℕ
  | _, [], j => v j
  | off, t :: ts, j => writeTris (writeBytes v off (triBytes t)) (off + 50) ts j

/-- `toBinarySTL` (`extruder.js:505-541`): allocate a zero-initialized
buffer of `84 + 50 * N` bytes, write 80 header zero bytes, the uint32
triangle count at offset 80, then the 50-byte records from offset 84; the
result is the final byte list of the buffer. -/
def toBinarySTL (tris : List TriF32) : List ℕ :=
  let bufferSize := 84 + 50 * tris.length
  let v0 : ℕ → ℕ := fun _ => 0
  let v1 := writeBytes v0 0 (List.replicate 80 0)
  let v2 := writeBytes v1 80 (u32le (tris.length % 2 ^ 32))
  let v3 := writeTris v2 84 tris
  (List.range bufferSize).map v3

/-- The options object of `THREE.STLExporter.parse`
(`extruder.js:466-469`). -/
structure STLOptions where
  binary : Option Bool
deriving DecidableEq, Repr

/-- The result channel of `THREE.STLExporter.parse` (`extruder.js:466-598`):
`options = options || {}`, `binary = options.binary !== undefined ?
options.binary : false`; the binary buffer is returned only when `binary`
is set, otherwise the function returns `null` (its comment: ASCII STL is
not implemented because only the binary format is used). -/
def stlParse (options : Option STLOptions) (tris : List TriF32) :
    Option (List ℕ) :=
  let binary := ((options.getD ⟨none⟩).binary).getD false
  if binary then some (toBinarySTL tris) else none

/-- `Extruder.exportSTL` (`extruder.js:328-357`): calls `exporter.parse`
with NO options argument, so `binary` defaults to `false`. -/
def exportSTLPayload (tris : List TriF32) : Option (List ℕ) :=
  stlParse none tris

section STLLemmas

theorem writeBytes_apply (bs : List ℕ) :
    ∀ (v : ℕ → ℕ) (off j : ℕ),
      writeBytes v off bs j =
        if off ≤ j ∧ j < off + bs.length then bs.getD (j - off) 0 else v j := by
  induction bs with
  | nil =>
      intro v off j
      rw [writeBytes]
      rw [if_neg (by simp)]
  | cons b bs ih =>
      intro v off j
      rw [writeBytes, ih]
      by_cases h : off + 1 ≤ j ∧ j < off + 1 + bs.length
      · rw [if_pos h, if_pos (by simp only [List.length_cons]; omega)]
        have hj : j - off = (j - (off + 1)) + 1 := by omega
        rw [hj, List.getD_cons_succ]
      · rw [if_neg h]
        by_cases h2 : j = off
        · subst h2
          rw [setByte, if_pos rfl, if_pos (by simp only [List.length_cons]; omega)]
          simp
        · rw [setByte, if_neg h2,
            if_neg (by simp only [List.length_cons]; omega)]

theorem triBytes_length (t : TriF32) : (triBytes t).length = 50 := by
  simp [triBytes, Vec3F32.bytes, F32.bytes, u16le]

theorem triBytes_flatten_length (ts : List TriF32) :
    ((ts.map triBytes).flatten).length = 50 * ts.length := by
  induction ts with
  | nil => simp
  | cons t ts ih =>
      simp only [List.map_cons, List.flatten_cons, List.length_append, ih,
        triBytes_length, List.length_cons]
      ring

theorem getD_append_left_nat (l l' : List ℕ) (i : ℕ) (h : i < l.length) :
    (l ++ l').getD i 0 = l.getD i 0 := by
  rw [List.getD_eq_getElem _ _ (by rw [List.length_append]; omega),
      List.getD_eq_getElem _ _ h]
  exact List.getElem_append_left ..

theorem getD_append_right_nat (l l' : List ℕ) (i : ℕ) (h : l.length ≤ i)
    (h2 : i < l.length + l'.length) :
    (l ++ l').getD i 0 = l'.getD (i - l.length) 0 := by
  rw [List.getD_eq_getElem _ _ (by rw [List.length_append]; omega),
      List.getD_eq_getElem _ _ (by omega)]
  exact List.getElem_append_right h

theorem writeTris_apply (ts : List TriF32) :
    ∀ (v : ℕ → ℕ) (off j : ℕ),
      writeTris v off ts j =
        if off ≤ j ∧ j < off + 50 * ts.length then
          ((ts.map triBytes).flatten).getD (j - off) 0
        else v j := by
  induction ts with
  | nil =>
      intro v off j
      rw [writeTris, if_neg (by simp)]
  | cons t ts ih =>
      intro v off j
      have hA : (triBytes t).length = 50 := triBytes_length t
      have hB : ((ts.map triBytes).flatten).length = 50 * ts.length :=
        triBytes_flatten_length ts
      have hC : 50 * (t :: ts).length = 50 + 50 * ts.length := by
        simp only [List.length_cons]
        ring
      rw [writeTris, ih, writeBytes_apply, hA, hC]
      simp only [List.map_cons, List.flatten_cons]
      by_cases h : off + 50 ≤ j ∧ j < off + 50 + 50 * ts.length
      · rw [if_pos h, if_pos (by omega),
          getD_append_right_nat _ _ _ (by omega : (triBytes t).length ≤ j - off)
            (by rw [hA, hB]; omega), hA]
        congr 1
      · rw [if_neg h]
        by_cases h2 : off ≤ j ∧ j < off + 50
        · rw [if_pos h2, if_pos (by omega),
            getD_append_left_nat _ _ _ (by rw [hA]; omega)]
        · rw [if_neg h2, if_neg (by omega)]

theorem toBinarySTL_eq (tris : List TriF32) :
    toBinarySTL tris =
      List.replicate 80 0 ++ u32le (tris.length % 2 ^ 32) ++
        (tris.map triBytes).flatten := by
  have hu32 : (u32le (tris.length % 2 ^ 32)).length = 4 := rfl
  have hB : ((tris.map triBytes).flatten).length = 50 * tris.length :=
    triBytes_flatten_length tris
  apply List.ext_getElem
  · simp only [toBinarySTL, List.length_map, List.length_range,
      List.length_append, List.length_replicate, hu32, hB]
  · intro j h1 h2
    have hj : j < 84 + 50 * tris.length := by
      simpa [toBinarySTL] using h1
    simp only [toBinarySTL, List.getElem_map, List.getElem_range]
    rw [writeTris_apply, writeBytes_apply, writeBytes_apply,
      ← List.getD_eq_getElem _ 0 h2]
    have hrep : (List.replicate 80 (0 : ℕ)).length = 80 := by simp
    by_cases hc : 84 ≤ j
    · rw [if_pos (by omega),
        getD_append_right_nat _ _ _
          (by rw [List.length_append, hrep, hu32]; omega)
          (by rw [List.length_append, hrep, hu32, hB]; omega),
        List.length_append, hrep, hu32]
    · rw [if_neg (by omega),
        getD_append_left_nat _ _ _
          (by rw [List.length_append, hrep, hu32]; omega)]
      by_cases hc2 : 80 ≤ j
      · rw [if_pos (by rw [hu32]; omega),
          getD_append_right_nat _ _ _ (by rw [hrep]; omega)
            (by rw [hrep, hu32]; omega), hrep]
      · rw [if_neg (by rw [hu32]; omega), if_pos (by rw [hrep]; omega),
          getD_append_left_nat _ _ _ (by rw [hrep]; omega)]
        simp

end STLLemmas

/-- C1: the binary STL layout of `toBinarySTL` is exactly as claimed — an
80-byte zero header, the little-endian uint32 triangle count at offset 80,
and one 50-byte record per triangle (12 normal bytes, 36 vertex bytes, and
a uint16 attribute written as 0), for a total of `84 + 50 * N` bytes — but
the export path never produces it: `exportSTL` calls `parse` without
options, `binary` defaults to `false`, and `parse` returns `null`. -/
theorem stl_binary_layout :
    (∀ tris, toBinarySTL tris =
        List.replicate 80 0 ++ u32le (tris.length % 2 ^ 32) ++
          (tris.map triBytes).flatten) ∧
    (∀ tris, (toBinarySTL tris).length = 84 + 50 * tris.length) ∧
    (∀ t, (triBytes t).length = 50 ∧ (triBytes t).drop 48 = [0, 0]) ∧
    (∀ n, (u32le n).getD 0 0 + 256 * (u32le n).getD 1 0 +
        65536 * (u32le n).getD 2 0 + 16777216 * (u32le n).getD 3 0 =
      n % 2 ^ 32) ∧
    (∀ tris, stlParse (some ⟨some true⟩) tris = some (toBinarySTL tris)) ∧
    (∀ tris, exportSTLPayload tris = none) := by
  refine ⟨toBinarySTL_eq, ?_, ?_, ?_, fun tris => rfl, fun tris => rfl⟩
  · intro tris
    rw [toBinarySTL_eq]
    simp only [List.length_append, List.length_replicate,
      triBytes_flatten_length]
    have : (u32le (tris.length % 2 ^ 32)).length = 4 := rfl
    omega
  · intro t
    refine ⟨triBytes_length t, ?_⟩
    simp [triBytes, Vec3F32.bytes, F32.bytes, u16le]
  · intro n
    simp only [u32le, List.getD_cons_zero, List.getD_cons_succ]
    omega

/-- Integer pixel coordinate `(x, y)` used by the boundary tracers. -/
abbrev IPt := ℤ × ℤ

/-- The 8 trace directions in priority order, starting rightwards
(`vectorizer.js:749-752` and `part_002:273-276` are identical). -/
def traceDirections : List IPt :=
  [(1, 0), (1, 1), (0, 1), (-1, 1), (-1, 0), (-1, -1), (0, -1), (1, -1)]

/-- Mark a pixel visited (`visited[y][x] = true`). -/
def markVisited (visited : IPt → Bool) (q : IPt) : IPt → Bool :=
  fun r => if r = q then true else visited r

/-- `Vectorizer.isPotentialBoundary` (`vectorizer.js:838-854`): `false` on
the outer one-pixel border or off the grid, `false` on white pixels, else
true iff some 4-neighbor is white. -/
def isPotentialBoundary (img : ℤ → ℤ → Bool) (W Hgt : ℤ) (x y : ℤ) : Bool :=
  if x ≤ 0 ∨ x ≥ W - 1 ∨ y ≤ 0 ∨ y ≥ Hgt - 1 then false
  else if !img y x then false
  else !img (y - 1) x || !img (y + 1) x || !img y (x - 1) || !img y (x + 1)

/-- Try the 8 directions in priority order and return the first qualifying
neighbor of `cur` (the inner `for` over `directions` with `break`,
`vectorizer.js:777-801`, `part_002:321-357`). -/
def tryDirs (qual : IPt → Bool) (cur : IPt) : List IPt → Option IPt
  | [] => none
  | d :: ds =>
      let q : IPt := (cur.1 + d.1, cur.2 + d.2)
      if qual q then some q else tryDirs qual cur ds

/-- The neighbor test of `findContoursImproved`'s walk
(`vectorizer.js:783-799`): in bounds, ink, unvisited, and a potential
boundary pixel. -/
def fciQualifies (img : ℤ → ℤ → Bool) (W Hgt : ℤ) (visited : IPt → Bool)
    (q : IPt) : Bool :=
  decide (0 ≤ q.1) && decide (q.1 < W) && decide (0 ≤ q.2) &&
    decide (q.2 < Hgt) && img q.2 q.1 && !visited q &&
    isPotentialBoundary img W Hgt q.1 q.2

/-- One search step of the `findContoursImproved` walk. -/
def findNextFCI (img : ℤ → ℤ → Bool) (W Hgt : ℤ) (visited : IPt → Bool)
    (cur : IPt) : Option IPt :=
  tryDirs (fciQualifies img W Hgt visited) cur traceDirections

/-- The `do … while (contour.length < 10000)` walk of
`findContoursImproved` (`vectorizer.js:773-808`): stop when no qualifying
unvisited neighbor is found or the walk returns to the start pixel
(unreachable once the start is marked visited), appending one marked pixel
per iteration, with the do-while cap re-checked after each append. -/
def traceFCI (img : ℤ → ℤ → Bool) (W Hgt : ℤ) (start : IPt)
    (visited : IPt → Bool) (cur : IPt) (contour : List IPt) :
    List IPt × (IPt → Bool) :=
  match findNextFCI img W Hgt visited cur with
  | none => (contour, visited)
  | some q =>
      if q = start then (contour ++ [q], markVisited visited q)
      else if h : (contour ++ [q]).length < 10000 then
        traceFCI img W Hgt start (markVisited visited q) q (contour ++ [q])
      else (contour ++ [q], markVisited visited q)
termination_by 10000 - contour.length
decreasing_by
  simp only [List.length_append, List.length_cons, List.length_nil] at h ⊢
  omega

/-- Scan order of `findContoursImproved`'s outer loops
(`vectorizer.js:755-756`): row-major over the interior
`1 ≤ y < height-1`, `1 ≤ x < width-1`. -/
def scanCoordsFCI (W Hgt : ℤ) : List IPt :=
  ((List.range' 1 (Hgt - 2).toNat).map fun (y : ℕ) =>
    (List.range' 1 (W - 2).toNat).map fun (x : ℕ) =>
      ((x : ℤ), (y : ℤ))).flatten

/-- Close a traced contour (`vectorizer.js:812-817`): append a copy of the
first point when the walk did not end on it. -/
def closeContour (tr : List IPt) : List IPt :=
  if 0 < tr.length ∧ tr.head? ≠ tr.getLast? then tr ++ [tr.headI] else tr

/-- One iteration of `findContoursImproved`'s pixel scan
(`vectorizer.js:757-822`): an unvisited boundary ink pixel starts a walk;
the emitted contour is kept only when it has at least 3 points, closed,
and reversed for the inverted (hole) pass. -/
def fciStep (img : ℤ → ℤ → Bool) (W Hgt : ℤ) (isInverted : Bool)
    (st : (IPt → Bool) × List (List IPt)) (c : IPt) :
    (IPt → Bool) × List (List IPt) :=
  if img c.2 c.1 && !st.1 c && isPotentialBoundary img W Hgt c.1 c.2 then
    if 3 ≤ (traceFCI img W Hgt c (markVisited st.1 c) c [c]).1.length then
      ((traceFCI img W Hgt c (markVisited st.1 c) c [c]).2,
        st.2 ++ [if isInverted then
            (closeContour (traceFCI img W Hgt c (markVisited st.1 c) c [c]).1).reverse
          else closeContour (traceFCI img W Hgt c (markVisited st.1 c) c [c]).1])
    else ((traceFCI img W Hgt c (markVisited st.1 c) c [c]).2, st.2)
  else st

/-- `Vectorizer.findContoursImproved` (`vectorizer.js:742-827`). -/
def findContoursImprovedEmb (img : ℤ → ℤ → Bool) (W Hgt : ℤ)
    (isInverted : Bool) : List (List IPt) :=
  ((scanCoordsFCI W Hgt).foldl (fciStep img W Hgt isInverted)
    (fun _ => false, [])).2

/-- The `isBorder` test of `part_002`'s `findBinaryContours`
(`part_002:287-301`, repeated at `331-344`): ink pixel with at least one
8-neighbor that is white or out of bounds. -/
def isBorderP2 (img : ℤ → ℤ → Bool) (W Hgt : ℤ) (q : IPt) : Bool :=
  traceDirections.any fun d =>
    if 0 ≤ q.1 + d.1 ∧ q.1 + d.1 < W ∧ 0 ≤ q.2 + d.2 ∧ q.2 + d.2 < Hgt then
      !img (q.2 + d.2) (q.1 + d.1)
    else true

/-- The neighbor test of `part_002`'s walk (`part_002:326-346`): in bounds,
ink, unvisited, and itself a border pixel. -/
def p2Qualifies (img : ℤ → ℤ → Bool) (W Hgt : ℤ) (visited : IPt → Bool)
    (q : IPt) : Bool :=
  decide (0 ≤ q.1) && decide (q.1 < W) && decide (0 ≤ q.2) &&
    decide (q.2 < Hgt) && img q.2 q.1 && !visited q &&
    isBorderP2 img W Hgt q

/-- One search step of `part_002`'s walk. -/
def findNextP2 (img : ℤ → ℤ → Bool) (W Hgt : ℤ) (visited : IPt → Bool)
    (cur : IPt) : Option IPt :=
  tryDirs (p2Qualifies img W Hgt visited) cur traceDirections

/-- The `while (foundNext)` walk of `part_002`'s `findBinaryContours`
(`part_002:316-368`): stop when no qualifying neighbor is found or the walk
returns to the start; the cap check `contour.length > 10000` runs AFTER the
append, so the walk can grow to 10001 points before it stops. -/
def traceP2 (img : ℤ → ℤ → Bool) (W Hgt : ℤ) (start : IPt)
    (visited : IPt → Bool) (cur : IPt) (contour : List IPt) :
    List IPt × (IPt → Bool) :=
  match findNextP2 img W Hgt visited cur with
  | none => (contour, visited)
  | some q =>
      if q = start then (contour ++ [q], markVisited visited q)
      else if h : 10000 < (contour ++ [q]).length then
        (contour ++ [q], markVisited visited q)
      else traceP2 img W Hgt start (markVisited visited q) q (contour ++ [q])
termination_by 10001 - contour.length
decreasing_by
  simp only [List.length_append, List.length_cons, List.length_nil] at h ⊢
  omega

/-- Scan order of `findBinaryContours` (`part_002:279-280`): row-major over
the whole grid. -/
def scanCoordsP2 (W Hgt : ℤ) : List IPt :=
  ((List.range Hgt.toNat).map fun (y : ℕ) =>
    (List.range W.toNat).map fun (x : ℕ) => ((x : ℤ), (y : ℤ))).flatten

/-- Close a `part_002` contour (`part_002:370-375`): append a copy of the
first point when the contour has more than 2 points and is not yet
closed. -/
def closeContourP2 (tr : List IPt) : List IPt :=
  if 2 < tr.length ∧ tr.head? ≠ tr.getLast? then tr ++ [tr.headI] else tr

/-- One iteration of `findBinaryContours`' pixel scan (`part_002:279-383`):
an unvisited ink border pixel starts a walk; the contour is closed and then
kept only when it has at least 3 points. -/
def p2Step (img : ℤ → ℤ → Bool) (W Hgt : ℤ)
    (st : (IPt → Bool) × List (List IPt)) (c : IPt) :
    (IPt → Bool) × List (List IPt) :=
  if img c.2 c.1 && !st.1 c then
    if isBorderP2 img W Hgt c then
      if 3 ≤ (closeContourP2
          (traceP2 img W Hgt c (markVisited st.1 c) c [c]).1).length then
        ((traceP2 img W Hgt c (markVisited st.1 c) c [c]).2,
          st.2 ++ [closeContourP2
            (traceP2 img W Hgt c (markVisited st.1 c) c [c]).1])
      else ((traceP2 img W Hgt c (markVisited st.1 c) c [c]).2, st.2)
    else st
  else st

/-- `findBinaryContours` of `part_002` (`part_002:266-387`). -/
def findBinaryContoursEmb (img : ℤ → ℤ → Bool) (W Hgt : ℤ) :
    List (List IPt) :=
  ((scanCoordsP2 W Hgt).foldl (p2Step img W Hgt) (fun _ => false, [])).2

section TracerLemmas

theorem traceFCI_prefix (img : ℤ → ℤ → Bool) (W Hgt : ℤ) (start : IPt)
    (visited : IPt → Bool) (cur : IPt) (contour : List IPt) :
    ∃ s, (traceFCI img W Hgt start visited cur contour).1 = contour ++ s := by
  induction visited, cur, contour using traceFCI.induct img W Hgt start with
  | case1 v c ctr hf =>
      refine ⟨[], ?_⟩
      rw [traceFCI, hf]
      simp
  | case2 v c ctr hf =>
      refine ⟨[start], ?_⟩
      rw [traceFCI, hf]
      simp
  | case3 v c ctr q hf hq hlen ih =>
      obtain ⟨s, hs⟩ := ih
      refine ⟨q :: s, ?_⟩
      rw [traceFCI, hf]
      simp only [if_neg hq, dif_pos hlen, hs]
      simp
  | case4 v c ctr q hf hq hlen =>
      refine ⟨[q], ?_⟩
      rw [traceFCI, hf]
      simp only [if_neg hq, dif_neg hlen]

theorem traceFCI_length_bound (img : ℤ → ℤ → Bool) (W Hgt : ℤ) (start : IPt)
    (visited : IPt → Bool) (cur : IPt) (contour : List IPt) :
    (traceFCI img W Hgt start visited cur contour).1.length ≤
      max (contour.length + 1) 10000 := by
  induction visited, cur, contour using traceFCI.induct img W Hgt start with
  | case1 v c ctr hf =>
      rw [traceFCI, hf]
      simp only
      omega
  | case2 v c ctr hf =>
      rw [traceFCI, hf]
      simp only [if_pos rfl]
      simp
  | case3 v c ctr q hf hq hlen ih =>
      rw [traceFCI, hf]
      simp only [if_neg hq, dif_pos hlen]
      simp only [List.length_append, List.length_cons, List.length_nil]
        at ih hlen
      omega
  | case4 v c ctr q hf hq hlen =>
      rw [traceFCI, hf]
      simp only [if_neg hq, dif_neg hlen]
      simp

theorem traceP2_prefix (img : ℤ → ℤ → Bool) (W Hgt : ℤ) (start : IPt)
    (visited : IPt → Bool) (cur : IPt) (contour : List IPt) :
    ∃ s, (traceP2 img W Hgt start visited cur contour).1 = contour ++ s := by
  induction visited, cur, contour using traceP2.induct img W Hgt start with
  | case1 v c ctr hf =>
      refine ⟨[], ?_⟩
      rw [traceP2, hf]
      simp
  | case2 v c ctr hf =>
      refine ⟨[start], ?_⟩
      rw [traceP2, hf]
      simp
  | case3 v c ctr q hf hq hlen =>
      refine ⟨[q], ?_⟩
      rw [traceP2, hf]
      simp only [if_neg hq, dif_pos hlen]
  | case4 v c ctr q hf hq hlen ih =>
      obtain ⟨s, hs⟩ := ih
      refine ⟨q :: s, ?_⟩
      rw [traceP2, hf]
      simp only [if_neg hq, dif_neg hlen, hs]
      simp

theorem traceP2_length_bound (img : ℤ → ℤ → Bool) (W Hgt : ℤ) (start : IPt)
    (visited : IPt → Bool) (cur : IPt) (contour : List IPt) :
    (traceP2 img W Hgt start visited cur contour).1.length ≤
      max (contour.length + 1) 10001 := by
  induction visited, cur, contour using traceP2.induct img W Hgt start with
  | case1 v c ctr hf =>
      rw [traceP2, hf]
      simp only
      omega
  | case2 v c ctr hf =>
      rw [traceP2, hf]
      simp only [if_pos rfl]
      simp
  | case3 v c ctr q hf hq hlen =>
      rw [traceP2, hf]
      simp only [if_neg hq, dif_pos hlen]
      simp
  | case4 v c ctr q hf hq hlen ih =>
      rw [traceP2, hf]
      simp only [if_neg hq, dif_neg hlen]
      simp only [List.length_append, List.length_cons, List.length_nil]
        at ih hlen
      omega

/-- The emitted-contour invariant: at least 3 points, bounded length, and
first point equal to last point. -/
def goodContour (bound : ℕ) (c : List IPt) : Prop :=
  3 ≤ c.length ∧ c.length ≤ bound ∧ c.head? = c.getLast?

theorem closeContour_spec (tr : List IPt) (h3 : 3 ≤ tr.length) :
    3 ≤ (closeContour tr).length ∧
    (closeContour tr).length ≤ tr.length + 1 ∧
    (closeContour tr).head? = (closeContour tr).getLast? := by
  rw [closeContour]
  by_cases hc : 0 < tr.length ∧ tr.head? ≠ tr.getLast?
  · rw [if_pos hc]
    refine ⟨by simp only [List.length_append, List.length_cons,
      List.length_nil]; omega, by simp, ?_⟩
    rcases tr with _ | ⟨a, t⟩
    · simp at h3
    · rw [List.getLast?_concat]
      simp [List.headI]
  · rw [if_neg hc]
    push_neg at hc
    exact ⟨h3, by omega, hc (by omega)⟩

theorem closeContourP2_good (tr : List IPt) (htr : tr.length ≤ 10001)
    (h3 : 3 ≤ (closeContourP2 tr).length) :
    goodContour 10002 (closeContourP2 tr) := by
  rw [closeContourP2] at h3 ⊢
  by_cases hc : 2 < tr.length ∧ tr.head? ≠ tr.getLast?
  · rw [if_pos hc] at h3 ⊢
    refine ⟨h3, by simp only [List.length_append, List.length_cons,
      List.length_nil]; omega, ?_⟩
    rcases tr with _ | ⟨a, t⟩
    · simp at hc
    · rw [List.getLast?_concat]
      simp [List.headI]
  · rw [if_neg hc] at h3 ⊢
    push_neg at hc
    exact ⟨h3, by omega, hc (by omega)⟩

theorem reverse_goodContour (bound : ℕ) (c : List IPt)
    (h : goodContour bound c) : goodContour bound c.reverse := by
  obtain ⟨h1, h2, h3⟩ := h
  refine ⟨by simpa using h1, by simpa using h2, ?_⟩
  rw [List.head?_reverse, List.getLast?_reverse, h3]

theorem fciStep_preserves (img : ℤ → ℤ → Bool) (W Hgt : ℤ) (inv : Bool)
    (st : (IPt → Bool) × List (List IPt)) (c : IPt)
    (hP : ∀ x ∈ st.2, goodContour 10001 x) :
    ∀ x ∈ (fciStep img W Hgt inv st c).2, goodContour 10001 x := by
  rw [fciStep]
  by_cases hscan :
      (img c.2 c.1 && !st.1 c && isPotentialBoundary img W Hgt c.1 c.2) = true
  · rw [if_pos hscan]
    by_cases hlen :
        3 ≤ (traceFCI img W Hgt c (markVisited st.1 c) c [c]).1.length
    · rw [if_pos hlen]
      intro x hx
      rcases List.mem_append.mp hx with hx | hx
      · exact hP x hx
      · have hb : (traceFCI img W Hgt c (markVisited st.1 c) c [c]).1.length ≤
            10000 := by
          have := traceFCI_length_bound img W Hgt c (markVisited st.1 c) c [c]
          simpa using this
        obtain ⟨g1, g2, g3⟩ :=
          closeContour_spec (traceFCI img W Hgt c (markVisited st.1 c) c [c]).1 hlen
        have hgood : goodContour 10001
            (closeContour (traceFCI img W Hgt c (markVisited st.1 c) c [c]).1) :=
          ⟨g1, by omega, g3⟩
        have hx' : x = if inv then
            (closeContour (traceFCI img W Hgt c (markVisited st.1 c) c [c]).1).reverse
          else closeContour (traceFCI img W Hgt c (markVisited st.1 c) c [c]).1 := by
          simpa using hx
        subst hx'
        cases inv
        · simpa using hgood
        · simpa using reverse_goodContour _ _ hgood
    · rw [if_neg hlen]
      exact hP
  · rw [if_neg hscan]
    exact hP

theorem p2Step_preserves (img : ℤ → ℤ → Bool) (W Hgt : ℤ)
    (st : (IPt → Bool) × List (List IPt)) (c : IPt)
    (hP : ∀ x ∈ st.2, goodContour 10002 x) :
    ∀ x ∈ (p2Step img W Hgt st c).2, goodContour 10002 x := by
  rw [p2Step]
  by_cases hscan : (img c.2 c.1 && !st.1 c) = true
  · rw [if_pos hscan]
    by_cases hborder : isBorderP2 img W Hgt c = true
    · rw [if_pos hborder]
      by_cases hlen : 3 ≤
          (closeContourP2 (traceP2 img W Hgt c (markVisited st.1 c) c [c]).1).length
      · rw [if_pos hlen]
        intro x hx
        rcases List.mem_append.mp hx with hx | hx
        · exact hP x hx
        · have hb : (traceP2 img W Hgt c (markVisited st.1 c) c [c]).1.length ≤
              10001 := by
            have := traceP2_length_bound img W Hgt c (markVisited st.1 c) c [c]
            simpa using this
          have hx' : x =
              closeContourP2 (traceP2 img W Hgt c (markVisited st.1 c) c [c]).1 := by
            simpa using hx
          subst hx'
          exact closeContourP2_good _ hb hlen
      · rw [if_neg hlen]
        exact hP
    · rw [if_neg hborder]
      exact hP
  · rw [if_neg hscan]
    exact hP

theorem foldl_preserves_good
    (step : ((IPt → Bool) × List (List IPt)) → IPt →
      ((IPt → Bool) × List (List IPt)))
    (bound : ℕ)
    (hstep : ∀ st c, (∀ x ∈ st.2, goodContour bound x) →
      ∀ x ∈ (step st c).2, goodContour bound x) :
    ∀ (coords : List IPt) (st : (IPt → Bool) × List (List IPt)),
      (∀ x ∈ st.2, goodContour bound x) →
      ∀ x ∈ (coords.foldl step st).2, goodContour bound x := by
  intro coords
  induction coords with
  | nil =>
      intro st h
      simpa using h
  | cons c cs ih =>
      intro st h
      rw [List.foldl_cons]
      exact ih _ (hstep st c h)

theorem findContoursImprovedEmb_good (img : ℤ → ℤ → Bool) (W Hgt : ℤ)
    (inv : Bool) :
    ∀ x ∈ findContoursImprovedEmb img W Hgt inv, goodContour 10001 x :=
  foldl_preserves_good _ 10001 (fciStep_preserves img W Hgt inv) _ _
    (by simp)

theorem findBinaryContoursEmb_good (img : ℤ → ℤ → Bool) (W Hgt : ℤ) :
    ∀ x ∈ findBinaryContoursEmb img W Hgt, goodContour 10002 x :=
  foldl_preserves_good _ 10002 (p2Step_preserves img W Hgt) _ _
    (by simp)

end TracerLemmas

/-- C5 (amended): the walk of `findContoursImproved` appends at most one
point per iteration and its do-while cap bounds every traced walk by 10,000
points (emitted contours, with the closing point, by 10,001); the `part_002`
variant checks its cap only after the append, so its walk is bounded by
10,001 points (emitted, closed contours by 10,002); and both tracers emit
only contours with at least 3 points. -/
theorem trace_cap_and_min_points :
    (∀ (img : ℤ → ℤ → Bool) (W Hgt : ℤ) (start : IPt) (visited : IPt → Bool)
        (cur : IPt) (contour : List IPt),
      (traceFCI img W Hgt start visited cur contour).1.length ≤
        max (contour.length + 1) 10000) ∧
    (∀ (img : ℤ → ℤ → Bool) (W Hgt : ℤ) (start : IPt) (visited : IPt → Bool)
        (cur : IPt) (contour : List IPt),
      (traceP2 img W Hgt start visited cur contour).1.length ≤
        max (contour.length + 1) 10001) ∧
    (∀ (img : ℤ → ℤ → Bool) (W Hgt : ℤ) (inv : Bool),
      (findContoursImprovedEmb img W Hgt inv).all
        (fun c => decide (3 ≤ c.length) && decide (c.length ≤ 10001)) = true) ∧
    (∀ (img : ℤ → ℤ → Bool) (W Hgt : ℤ),
      (findBinaryContoursEmb img W Hgt).all
        (fun c => decide (3 ≤ c.length) && decide (c.length ≤ 10002)) = true) := by
  refine ⟨traceFCI_length_bound, traceP2_length_bound, ?_, ?_⟩
  · intro img W Hgt inv
    apply List.all_eq_true.mpr
    intro c hc
    obtain ⟨h1, h2, -⟩ := findContoursImprovedEmb_good img W Hgt inv c hc
    simp only [Bool.and_eq_true, decide_eq_true_eq]
    exact ⟨h1, h2⟩
  · intro img W Hgt
    apply List.all_eq_true.mpr
    intro c hc
    obtain ⟨h1, h2, -⟩ := findBinaryContoursEmb_good img W Hgt c hc
    simp only [Bool.and_eq_true, decide_eq_true_eq]
    exact ⟨h1, h2⟩

/-- C10: every contour emitted by the fallback tracers is explicitly
closed: it has at least 3 points and its last point equals its first point
(the first point is appended as a closing point whenever the walk did not
end there), in `findContoursImproved` and in `part_002`'s
`findBinaryContours` alike. -/
theorem tracer_contours_closed :
    (∀ (img : ℤ → ℤ → Bool) (W Hgt : ℤ) (inv : Bool),
      (findContoursImprovedEmb img W Hgt inv).all
        (fun c => decide (3 ≤ c.length) &&
          decide (c.head? = c.getLast?)) = true) ∧
    (∀ (img : ℤ → ℤ → Bool) (W Hgt : ℤ),
      (findBinaryContoursEmb img W Hgt).all
        (fun c => decide (3 ≤ c.length) &&
          decide (c.head? = c.getLast?)) = true) := by
  constructor
  · intro img W Hgt inv
    apply List.all_eq_true.mpr
    intro c hc
    obtain ⟨h1, -, h3⟩ := findContoursImprovedEmb_good img W Hgt inv c hc
    simp only [Bool.and_eq_true, decide_eq_true_eq]
    exact ⟨h1, h3⟩
  · intro img W Hgt
    apply List.all_eq_true.mpr
    intro c hc
    obtain ⟨h1, -, h3⟩ := findBinaryContoursEmb_good img W Hgt c hc
    simp only [Bool.and_eq_true, decide_eq_true_eq]
    exact ⟨h1, h3⟩

section LineImage

/-- A 10005×2 test image: the whole first row (`y = 0`) is ink, the second
row is background. Its single boundary component is a straight line of
10005 pixels, long enough to drive `part_002`'s trace past its cap. -/
def lineImg : ℤ → ℤ → Bool := fun y x => decide (y = 0 ∧ 0 ≤ x ∧ x ≤ 10004)

/-- The visited set after the line walk has reached pixel `(k, 0)`:
exactly the pixels `(x, 0)` with `0 ≤ x ≤ k`. -/
def lineVisited (k : ℤ) : IPt → Bool :=
  fun q => decide (q.2 = 0 ∧ 0 ≤ q.1 ∧ q.1 ≤ k)

/-- The contour accumulated by the line walk up to pixel `(k, 0)`. -/
def lineCtr (k : ℕ) : List IPt :=
  (List.range (k + 1)).map fun (i : ℕ) => ((i : ℤ), (0 : ℤ))

theorem lineCtr_length (k : ℕ) : (lineCtr k).length = k + 1 := by
  simp [lineCtr]

theorem lineCtr_succ (k : ℕ) :
    lineCtr (k + 1) = lineCtr k ++ [((k : ℤ) + 1, 0)] := by
  rw [lineCtr, lineCtr, List.range_succ, List.map_append]
  simp

theorem markVisited_line (k : ℤ) (h0 : 0 ≤ k) :
    markVisited (lineVisited k) (k + 1, 0) = lineVisited (k + 1) := by
  funext q
  obtain ⟨q1, q2⟩ := q
  rw [markVisited, lineVisited, lineVisited]
  by_cases hq : ((q1, q2) : IPt) = (k + 1, 0)
  · rw [if_pos hq]
    simp only [Prod.mk.injEq] at hq
    rw [eq_comm, decide_eq_true_eq]
    refine ⟨hq.2, ?_, ?_⟩ <;> omega
  · rw [if_neg hq]
    rw [decide_eq_decide]
    have hne : ¬ (q1 = k + 1 ∧ q2 = 0) := by
      simpa [Prod.ext_iff] using hq
    constructor
    · rintro ⟨h1, h2, h3⟩
      exact ⟨h1, h2, by omega⟩
    · rintro ⟨h1, h2, h3⟩
      have : q1 ≠ k + 1 := fun h => hne ⟨h, h1⟩
      exact ⟨h1, h2, by omega⟩

theorem markVisited_line_init :
    markVisited (fun _ => false) ((0 : ℤ), (0 : ℤ)) = lineVisited 0 := by
  funext q
  obtain ⟨q1, q2⟩ := q
  rw [markVisited, lineVisited]
  by_cases hq : ((q1, q2) : IPt) = (0, 0)
  · rw [if_pos hq]
    simp only [Prod.mk.injEq] at hq
    rw [eq_comm, decide_eq_true_eq]
    exact ⟨hq.2, by omega, by omega⟩
  · rw [if_neg hq]
    simp only [Prod.mk.injEq] at hq
    rw [eq_comm, decide_eq_false_iff_not]
    rintro ⟨h1, h2, h3⟩
    exact hq ⟨by omega, h1⟩

/-- Every pixel of the ink row is a border pixel: its upper-right neighbor
is either out of bounds or in the white row. -/
theorem isBorderP2_line (q : IPt) (hq : q.2 = 0) :
    isBorderP2 lineImg 10005 2 q = true := by
  rw [isBorderP2, List.any_eq_true]
  refine ⟨(1, 1), by simp [traceDirections], ?_⟩
  split
  · rw [Bool.not_eq_true']
    rw [lineImg]
    rw [decide_eq_false_iff_not]
    rintro ⟨h1, -⟩
    omega
  · rfl

theorem p2Qualifies_line (k : ℤ) (h0 : 0 ≤ k) (hk : k + 1 ≤ 10004) :
    p2Qualifies lineImg 10005 2 (lineVisited k) (k + 1, 0) = true := by
  rw [p2Qualifies]
  have hb := isBorderP2_line (k + 1, 0) rfl
  rw [hb]
  have h1 : lineImg 0 (k + 1) = true := by
    rw [lineImg, decide_eq_true_eq]
    exact ⟨rfl, by omega, by omega⟩
  have h2 : lineVisited k (k + 1, 0) = false := by
    rw [lineVisited, decide_eq_false_iff_not]
    rintro ⟨-, -, h⟩
    omega
  simp only [h1, h2]
  simp only [Bool.not_false, Bool.and_true, Bool.true_and, Bool.and_eq_true,
    decide_eq_true_eq]
  refine ⟨⟨⟨by omega, by omega⟩, by omega⟩, by omega⟩

theorem findNextP2_line_step (k : ℤ) (h0 : 0 ≤ k) (hk : k + 1 ≤ 10004) :
    findNextP2 lineImg 10005 2 (lineVisited k) (k, 0) = some (k + 1, 0) := by
  rw [findNextP2, traceDirections, tryDirs]
  have hq := p2Qualifies_line k h0 hk
  simp only [show ((k : ℤ) + 1, (0 : ℤ) + 0) = (k + 1, 0) by norm_num] at *
  rw [if_pos hq]

/-- The line walk from pixel `(k, 0)` runs to the right and stops, via the
cap check, with the 10001-point contour `lineCtr 10000`. -/
theorem traceP2_line_main : ∀ (n k : ℕ), k + n = 9999 →
    traceP2 lineImg 10005 2 (0, 0) (lineVisited (k : ℤ)) ((k : ℤ), 0)
      (lineCtr k) = (lineCtr 10000, lineVisited 10000) := by
  intro n
  induction n with
  | zero =>
      intro k hk
      have hk9 : k = 9999 := by omega
      subst hk9
      have hne : ¬ ((((9999 : ℕ) : ℤ) + 1, (0 : ℤ)) = (0, 0)) := by
        simp only [Prod.mk.injEq]
        intro h
        omega
      have hcap : 10000 <
          (lineCtr 9999 ++ [(((9999 : ℕ) : ℤ) + 1, 0)]).length := by
        rw [List.length_append, lineCtr_length]
        norm_num
      rw [traceP2, findNextP2_line_step ((9999 : ℕ) : ℤ) (by norm_num)
        (by norm_num)]
      simp only [if_neg hne, dif_pos hcap]
      rw [← lineCtr_succ, markVisited_line _ (by norm_num)]
      norm_num
  | succ n ih =>
      intro k hk
      have hklt : k ≤ 9998 := by omega
      have hne : ¬ ((((k : ℕ) : ℤ) + 1, (0 : ℤ)) = (0, 0)) := by
        simp only [Prod.mk.injEq]
        intro h
        omega
      have hcap : ¬ 10000 <
          (lineCtr k ++ [(((k : ℕ) : ℤ) + 1, 0)]).length := by
        rw [List.length_append, lineCtr_length]
        simp only [List.length_cons, List.length_nil]
        omega
      rw [traceP2, findNextP2_line_step ((k : ℕ) : ℤ) (by positivity)
        (by omega)]
      simp only [if_neg hne, dif_neg hcap]
      rw [markVisited_line _ (by positivity), ← lineCtr_succ]
      have hcast : ((k : ℤ) + 1) = (((k + 1 : ℕ)) : ℤ) := by push_cast; ring
      rw [hcast]
      exact ih (k + 1) (by omega)

theorem lineCtr_head (k : ℕ) : (lineCtr k).head? = some ((0 : ℤ), 0) := by
  rw [lineCtr, List.range_eq_range', List.range'_succ]
  simp

theorem lineCtr_last (k : ℕ) : (lineCtr k).getLast? = some ((k : ℤ), 0) := by
  rw [lineCtr, List.range_succ, List.map_append]
  simp

theorem lineCtr_headI (k : ℕ) : (lineCtr k).headI = ((0 : ℤ), 0) := by
  have h := lineCtr_head k
  rcases hc : lineCtr k with _ | ⟨a, t⟩
  · rw [hc] at h
    simp at h
  · rw [hc] at h
    simp only [List.head?_cons, Option.some.injEq] at h
    simp [h]

theorem closeContourP2_line :
    closeContourP2 (lineCtr 10000) = lineCtr 10000 ++ [((0 : ℤ), (0 : ℤ))] := by
  rw [closeContourP2, if_pos, lineCtr_headI]
  refine ⟨?_, ?_⟩
  · rw [lineCtr_length]
    norm_num
  · rw [lineCtr_head, lineCtr_last]
    simp only [ne_eq, Option.some.injEq, Prod.mk.injEq]
    intro h
    have := h.1
    norm_num at this

theorem findNextP2_line_none :
    findNextP2 lineImg 10005 2 (lineVisited 10004) (10004, 0) = none := by
  rw [findNextP2, traceDirections]
  simp only [tryDirs]
  norm_num [p2Qualifies, lineImg, lineVisited]

theorem traceP2_line_tail :
    traceP2 lineImg 10005 2 (10001, 0) (lineVisited 10001) (10001, 0)
      [(10001, 0)] =
      ([(10001, 0), (10002, 0), (10003, 0), (10004, 0)],
        lineVisited 10004) := by
  have s1 : findNextP2 lineImg 10005 2 (lineVisited 10001) (10001, 0) =
      some (10002, 0) := by
    have h := findNextP2_line_step 10001 (by norm_num) (by norm_num)
    norm_num at h
    exact h
  have s2 : findNextP2 lineImg 10005 2 (lineVisited 10002) (10002, 0) =
      some (10003, 0) := by
    have h := findNextP2_line_step 10002 (by norm_num) (by norm_num)
    norm_num at h
    exact h
  have s3 : findNextP2 lineImg 10005 2 (lineVisited 10003) (10003, 0) =
      some (10004, 0) := by
    have h := findNextP2_line_step 10003 (by norm_num) (by norm_num)
    norm_num at h
    exact h
  have m1 : markVisited (lineVisited 10001) (10002, 0) = lineVisited 10002 := by
    have h := markVisited_line 10001 (by norm_num)
    norm_num at h
    exact h
  have m2 : markVisited (lineVisited 10002) (10003, 0) = lineVisited 10003 := by
    have h := markVisited_line 10002 (by norm_num)
    norm_num at h
    exact h
  have m3 : markVisited (lineVisited 10003) (10004, 0) = lineVisited 10004 := by
    have h := markVisited_line 10003 (by norm_num)
    norm_num at h
    exact h
  rw [traceP2, s1]
  simp only [if_neg (show ¬ (((10002 : ℤ), (0 : ℤ)) = (10001, 0)) by decide),
    dif_neg (show ¬ (10000 < (([(10001, 0)] : List IPt) ++ [(10002, 0)]).length)
      by simp), m1, List.singleton_append]
  rw [traceP2, s2]
  simp only [if_neg (show ¬ (((10003 : ℤ), (0 : ℤ)) = (10001, 0)) by decide),
    dif_neg (show ¬ (10000 <
      (([(10001, 0), (10002, 0)] : List IPt) ++ [(10003, 0)]).length) by simp),
    m2, List.cons_append, List.singleton_append]
  rw [traceP2, s3]
  simp only [if_neg (show ¬ (((10004 : ℤ), (0 : ℤ)) = (10001, 0)) by decide),
    dif_neg (show ¬ (10000 <
      (([(10001, 0), (10002, 0), (10003, 0)] : List IPt) ++
        [(10004, 0)]).length) by simp),
    m3, List.cons_append, List.singleton_append]
  rw [traceP2, findNextP2_line_none]
  simp

theorem lineCtr_zero : lineCtr 0 = [((0 : ℤ), (0 : ℤ))] := by
  rw [lineCtr, show List.range 1 = [0] from rfl]
  simp

theorem p2Step_line_first :
    p2Step lineImg 10005 2 ((fun _ => false), []) ((0 : ℤ), (0 : ℤ)) =
      (lineVisited 10000, [lineCtr 10000 ++ [((0 : ℤ), (0 : ℤ))]]) := by
  have htr : traceP2 lineImg 10005 2 (0, 0) (lineVisited 0) (0, 0)
      (lineCtr 0) = (lineCtr 10000, lineVisited 10000) := by
    have h := traceP2_line_main 9999 0 (by norm_num)
    norm_num at h
    exact h
  rw [p2Step]
  rw [if_pos (show (lineImg ((0 : ℤ), (0 : ℤ)).2 ((0 : ℤ), (0 : ℤ)).1 &&
    !(fun _ => false) ((0 : ℤ), (0 : ℤ))) = true by decide)]
  rw [if_pos (isBorderP2_line ((0 : ℤ), (0 : ℤ)) rfl)]
  have htr2 : traceP2 lineImg 10005 2 (0, 0) (lineVisited 0) (0, 0)
      [((0 : ℤ), (0 : ℤ))] = (lineCtr 10000, lineVisited 10000) := by
    rw [← lineCtr_zero]
    exact htr
  rw [markVisited_line_init, htr2, closeContourP2_line]
  rw [if_pos (show 3 ≤ (lineCtr 10000 ++ [((0 : ℤ), (0 : ℤ))]).length by
    rw [List.length_append, lineCtr_length]
    norm_num)]
  simp

theorem p2Step_line_second :
    p2Step lineImg 10005 2
      (lineVisited 10000, [lineCtr 10000 ++ [((0 : ℤ), (0 : ℤ))]])
      ((10001 : ℤ), (0 : ℤ)) =
      (lineVisited 10004,
        [lineCtr 10000 ++ [((0 : ℤ), (0 : ℤ))],
         [(10001, 0), (10002, 0), (10003, 0), (10004, 0), (10001, 0)]]) := by
  have hm : markVisited (lineVisited 10000) (10001, 0) = lineVisited 10001 := by
    have h := markVisited_line 10000 (by norm_num)
    norm_num at h
    exact h
  have hclose : closeContourP2
      ([(10001, 0), (10002, 0), (10003, 0), (10004, 0)] : List IPt) =
      [(10001, 0), (10002, 0), (10003, 0), (10004, 0), (10001, 0)] := by
    rw [closeContourP2, if_pos]
    · simp [List.headI]
    · constructor
      · simp
      · simp only [List.head?_cons, List.getLast?_concat, ne_eq,
          Option.some.injEq, Prod.mk.injEq]
        decide
  rw [p2Step]
  rw [if_pos (show (lineImg ((10001 : ℤ), (0 : ℤ)).2 ((10001 : ℤ), (0 : ℤ)).1 &&
    !lineVisited 10000 ((10001 : ℤ), (0 : ℤ))) = true by decide)]
  rw [if_pos (isBorderP2_line ((10001 : ℤ), (0 : ℤ)) rfl)]
  rw [hm, traceP2_line_tail, hclose]
  rw [if_pos (by simp : 3 ≤
    ([(10001, 0), (10002, 0), (10003, 0), (10004, 0), (10001, 0)] :
      List IPt).length)]
  rfl

theorem foldl_p2Step_skip (img : ℤ → ℤ → Bool) (W Hgt : ℤ) :
    ∀ (coords : List IPt) (st : (IPt → Bool) × List (List IPt)),
      (∀ c ∈ coords, (img c.2 c.1 && !st.1 c) = false) →
      coords.foldl (p2Step img W Hgt) st = st := by
  intro coords
  induction coords with
  | nil =>
      intro st h
      rfl
  | cons c cs ih =>
      intro st h
      have hc : p2Step img W Hgt st c = st := by
        rw [p2Step, if_neg]
        rw [h c (by simp)]
        simp
      rw [List.foldl_cons, hc]
      exact ih st fun c' hc' => h c' (by simp [hc'])

theorem range_10005_split :
    List.range 10005 =
      List.range' 0 1 ++ List.range' 1 10000 ++ List.range' 10001 1 ++
        List.range' 10002 3 := by
  have h1 := List.range'_append 0 10001 4 1
  have h2 := List.range'_append 0 1 10000 1
  have h3 := List.range'_append 10001 1 3 1
  norm_num at h1 h2 h3
  rw [List.range_eq_range', ← h1, ← h2, ← h3]
  simp [List.append_assoc]

set_option maxRecDepth 4000 in
theorem range_map_split (f : ℕ → IPt) :
    (List.range 10005).map f =
      ((List.range' 0 1).map f) ++ ((List.range' 1 10000).map f) ++
      ((List.range' 10001 1).map f) ++ ((List.range' 10002 3).map f) := by
  rw [range_10005_split]
  simp [List.map_append]

theorem scanCoordsP2_line :
    scanCoordsP2 10005 2 =
      (((List.range' 0 1).map fun (x : ℕ) => ((x : ℤ), (0 : ℤ))) ++
       ((List.range' 1 10000).map fun (x : ℕ) => ((x : ℤ), (0 : ℤ))) ++
       ((List.range' 10001 1).map fun (x : ℕ) => ((x : ℤ), (0 : ℤ))) ++
       ((List.range' 10002 3).map fun (x : ℕ) => ((x : ℤ), (0 : ℤ)))) ++
      ((List.range 10005).map fun (x : ℕ) => ((x : ℤ), (1 : ℤ))) := by
  rw [scanCoordsP2, show ((2 : ℤ).toNat) = 2 from rfl,
    show ((10005 : ℤ).toNat) = 10005 from rfl,
    show List.range 2 = [0, 1] from rfl]
  simp only [List.map_cons, List.map_nil, List.flatten_cons,
    List.flatten_nil, List.append_nil, Nat.cast_zero, Nat.cast_one]
  rw [range_map_split]

theorem p2_foldl_skip_seg2 :
    (((List.range' 1 10000).map fun (x : ℕ) =>
        ((x : ℤ), (0 : ℤ)))).foldl (p2Step lineImg 10005 2)
      (lineVisited 10000, [lineCtr 10000 ++ [((0 : ℤ), (0 : ℤ))]]) =
      (lineVisited 10000, [lineCtr 10000 ++ [((0 : ℤ), (0 : ℤ))]]) := by
  apply foldl_p2Step_skip
  rintro c hc
  obtain ⟨x, hx, rfl⟩ := List.mem_map.mp hc
  rw [List.mem_range'_1] at hx
  have hv : lineVisited 10000 ((x : ℤ), (0 : ℤ)) = true := by
    rw [lineVisited, decide_eq_true_eq]
    refine ⟨rfl, by positivity, ?_⟩
    have : x < 10001 := by omega
    omega
  simp [hv]

theorem p2_foldl_skip_seg4 :
    (((List.range' 10002 3).map fun (x : ℕ) =>
        ((x : ℤ), (0 : ℤ)))).foldl (p2Step lineImg 10005 2)
      (lineVisited 10004,
        [lineCtr 10000 ++ [((0 : ℤ), (0 : ℤ))],
         [(10001, 0), (10002, 0), (10003, 0), (10004, 0), (10001, 0)]]) =
      (lineVisited 10004,
        [lineCtr 10000 ++ [((0 : ℤ), (0 : ℤ))],
         [(10001, 0), (10002, 0), (10003, 0), (10004, 0), (10001, 0)]]) := by
  apply foldl_p2Step_skip
  rintro c hc
  obtain ⟨x, hx, rfl⟩ := List.mem_map.mp hc
  rw [List.mem_range'_1] at hx
  have hv : lineVisited 10004 ((x : ℤ), (0 : ℤ)) = true := by
    rw [lineVisited, decide_eq_true_eq]
    refine ⟨rfl, by positivity, ?_⟩
    have : x < 10005 := by omega
    omega
  simp [hv]

theorem p2_foldl_skip_row1 (st : (IPt → Bool) × List (List IPt)) :
    (((List.range 10005).map fun (x : ℕ) =>
        ((x : ℤ), (1 : ℤ)))).foldl (p2Step lineImg 10005 2) st = st := by
  apply foldl_p2Step_skip
  rintro c hc
  obtain ⟨x, hx, rfl⟩ := List.mem_map.mp hc
  have hi : lineImg ((x : ℤ), (1 : ℤ)).2 ((x : ℤ), (1 : ℤ)).1 = false := by
    rw [lineImg, decide_eq_false_iff_not]
    rintro ⟨h1, -⟩
    norm_num at h1
  rw [hi]
  simp

/-- C5 (counterexample): on the concrete 10005×2 line image, `part_002`'s
`findBinaryContours` emits a traced contour of 10002 points — its walk
reaches 10001 points before the `contour.length > 10000` cap fires, and the
closing point adds one more — so 10,000 does not bound the length of every
traced contour. (The second emitted contour collects the 4 leftover line
pixels.) -/
theorem p2_tracer_emits_over_cap :
    (findBinaryContoursEmb lineImg 10005 2).map List.length = [10002, 5] := by
  rw [findBinaryContoursEmb, scanCoordsP2_line]
  rw [List.foldl_append, List.foldl_append, List.foldl_append,
    List.foldl_append]
  rw [show ((List.range' 0 1).map fun (x : ℕ) => ((x : ℤ), (0 : ℤ))) =
      [((0 : ℤ), (0 : ℤ))] by norm_num [List.range']]
  rw [show (List.foldl (p2Step lineImg 10005 2) ((fun _ => false), [])
      [((0 : ℤ), (0 : ℤ))]) =
      (lineVisited 10000, [lineCtr 10000 ++ [((0 : ℤ), (0 : ℤ))]]) by
    rw [List.foldl_cons, List.foldl_nil, p2Step_line_first]]
  rw [p2_foldl_skip_seg2]
  rw [show ((List.range' 10001 1).map fun (x : ℕ) => ((x : ℤ), (0 : ℤ))) =
      [((10001 : ℤ), (0 : ℤ))] by norm_num [List.range']]
  rw [show (List.foldl (p2Step lineImg 10005 2)
      (lineVisited 10000, [lineCtr 10000 ++ [((0 : ℤ), (0 : ℤ))]])
      [((10001 : ℤ), (0 : ℤ))]) =
      (lineVisited 10004,
        [lineCtr 10000 ++ [((0 : ℤ), (0 : ℤ))],
         [(10001, 0), (10002, 0), (10003, 0), (10004, 0), (10001, 0)]]) by
    rw [List.foldl_cons, List.foldl_nil, p2Step_line_second]]
  rw [p2_foldl_skip_seg4, p2_foldl_skip_row1]
  simp [lineCtr_length]

end LineImage

/-- C10 (witness): the closedness theorem applied at a concrete image — a
single ink pixel with an ink right neighbor in a 4×3 grid (no contour is
emitted from a 2-pixel trace, and the all-quantified property holds). -/
theorem tracer_contours_closed_witness :
    ((findBinaryContoursEmb (fun y x => decide (y = 1 ∧ x = 1)) 4 3).all
      (fun c => decide (3 ≤ c.length) &&
        decide (c.head? = c.getLast?)) = true) :=
  tracer_contours_closed.2 _ 4 3

/-- C9: For every polygon point sequence, the shoelace signed area computed
over the reversed sequence equals the negation of the signed area computed
over the original sequence. -/
theorem calculateArea_reverse_neg (c : List Pt) :
    calculateArea c.reverse = - calculateArea c := by
  rw [calculateArea, calculateArea, shoelaceDouble_reverse, neg_div]

/-- C2 (amended): the extruder's `analyzeContour` satisfies
`isHole == (signedArea < 0)` with the signed area given by the shoelace
formula, and `Vectorizer.calculateArea` computes exactly the spec's shoelace
formula; but the convention is not uniform on every code path: the SVG/
ImageTracer path of `vectorizeImageData` fills `isHole` from the path's fill
colour (`isWhite`), independently of the polygon's signed area. -/
theorem classifier_hole_sign_convention (c : List Pt) (w : Bool) (pts : List Pt) :
    ((analyzeContour c).isHole = decide (shoelaceSpec c < 0)) ∧
    calculateArea c = shoelaceSpec c ∧
    (svgContourEntry w pts).isHole = w := by
  have harea : calculateArea c = shoelaceSpec c := by
    rw [calculateArea, shoelaceDouble_eq_rangeSum, shoelaceSpec]
    simp only [cross]
  refine ⟨?_, harea, rfl⟩
  have hiff : shoelaceDouble c < 0 ↔ shoelaceSpec c < 0 := by
    rw [← harea, calculateArea]
    constructor <;> intro h <;> linarith
  simp only [analyzeContour, decide_eq_decide]
  exact hiff

/-- C2 (counterexample): in `vectorizeImageData` a white-filled SVG path is
recorded with `isHole = true` even when its signed shoelace area is
positive, so `isHole == (signedArea < 0)` does not hold on every code path. -/
theorem svg_entry_hole_despite_positive_area :
    (svgContourEntry true [⟨0, 0⟩, ⟨4, 0⟩, ⟨4, 4⟩, ⟨0, 4⟩]).isHole = true ∧
    ¬ ((svgContourEntry true [⟨0, 0⟩, ⟨4, 0⟩, ⟨4, 4⟩, ⟨0, 4⟩]).area < 0) := by
  constructor
  · rfl
  · have : (svgContourEntry true [⟨0, 0⟩, ⟨4, 0⟩, ⟨4, 4⟩, ⟨0, 4⟩]).area = 16 := by
      simp [svgContourEntry, calculateArea, shoelaceDouble, cyclicNextPairs,
        List.rotate, cross]
      norm_num
    rw [this]
    norm_num
